import Mathlib

/-!
# Verification of the CompressionAlgorithms codec core

A shallow embedding, in Lean 4, of the three text codecs of the repository
(`src/algorithms/rle.ts` — `RLECompression`, the LZW codec file —
`LZWCompression`, and the Huffman codec file — `HuffmanCompression` together
with its `MinHeap`), and proofs about them.

Modelling conventions, used throughout:

* A TypeScript string is modelled as a `List Char`; `for (const ch of text)`
  iterates code points, which matches iterating the list.  `text.length`,
  string concatenation `+`, `String.prototype.repeat` become `List.length`,
  `++`, `List.replicate`.
* A thrown `Error` is modelled by the `Except String` monad: functions that can
  `throw` return `Except String (List Char)`; a normal return is `.ok`.
  `HuffmanCompression.decompress` never throws in the source (its failure paths
  `return "ERROR: Malformed data"` as an ordinary string), so its embedding
  always produces `.ok`.
* A TypeScript `Map` is modelled as an association list; `Map.get` is
  `List.lookup`, `Map.set` on a key known to be absent is `cons`, and
  `Map.set` with overwrite semantics is `assocSet` below.
* The LZW comma-joined decimal rendering of the emitted codes is modelled by
  the code list itself (`List Nat`): joining with `","` and re-splitting with
  `Number` is a bijection between code lists and their rendered strings, and
  every claim is about the codes.
* `JSON.stringify`/`JSON.parse` of the Huffman tree (a pure acyclic record) is
  a structural round-trip, so the serialized-tree interchange value is
  modelled as `Option HuffmanNode` (`none` standing for the empty tree
  string `""`).
-/

/-- The character class of the regex `/\d/` used by `RLECompression.decompress`:
the ASCII digits `'0'`–`'9'`. -/
def isDigitChar (c : Char) : Bool :=
  48 ≤ c.toNat && c.toNat ≤ 57

/-- Decimal rendering of a positive count, as in `count.toString()`
(the compressor only renders counts `≥ 2`, for which `Nat.digits` is the
digit expansion, least-significant first). -/
def natToDecChars (n : Nat) : List Char :=
  (Nat.digits 10 n).reverse.map (fun d => Char.ofNat (48 + d))

/-- `parseInt(buffer, 10)` on the digit-only buffers accumulated by
`RLECompression.decompress`: parse the leading run of decimal digits;
`none` models `NaN` (no leading digit). -/
def parseIntDec (ds : List Char) : Option Nat :=
  let digits := ds.takeWhile isDigitChar
  if digits.isEmpty then none
  else some (digits.foldl (fun acc d => 10 * acc + (d.toNat - 48)) 0)

/-- `Map.set` on an association list: overwrite the value if the key is
present (keeping its position), otherwise append the new pair at the end
(TypeScript `Map` insertion order). -/
def assocSet {α β : Type} [DecidableEq α] (k : α) (v : β) :
    List (α × β) → List (α × β)
  | [] => [(k, v)]
  | (k', v') :: rest =>
      if k' = k then (k', v) :: rest else (k', v') :: assocSet k v rest

/-- Propositional equality of `Except` results is decidable (used to evaluate
claims on concrete inputs). -/
instance {ε α : Type} [DecidableEq ε] [DecidableEq α] : DecidableEq (Except ε α) := fun x y =>
  match x, y with
  | .error a, .error b =>
      if h : a = b then .isTrue (by rw [h]) else .isFalse (by simp [h])
  | .ok a, .ok b =>
      if h : a = b then .isTrue (by rw [h]) else .isFalse (by simp [h])
  | .error _, .ok _ => .isFalse (by simp)
  | .ok _, .error _ => .isFalse (by simp)

namespace RLECompression

/-- One run of the compressed output: the count (omitted when it is `1`)
followed by the character — the `result += (count > 1 ? count.toString() : "")
+ currentChar` step of `compress`. -/
def encodeRun (count : Nat) (currentChar : Char) : List Char :=
  (if count > 1 then natToDecChars count else []) ++ [currentChar]

/-- The scan loop of `RLECompression.compress`, carrying the current run
character and its count (the loop from the second character onwards). -/
def compressLoop : List Char → Char → Nat → List Char
  | [], currentChar, count => encodeRun count currentChar
  | ch :: rest, currentChar, count =>
      if ch = currentChar then compressLoop rest currentChar (count + 1)
      else encodeRun count currentChar ++ compressLoop rest ch 1

/-- `RLECompression.compress`: empty input yields the empty string; otherwise
run-length encode starting from the first character with count `1`. -/
def compress : List Char → List Char
  | [] => []
  | c :: rest => compressLoop rest c 1

/-- The scan loop of `RLECompression.decompress`, carrying the digit
`countBuffer`.  A digit is accumulated; a non-digit is repeated
`parseInt(buffer)` (or `1`) times; a buffer left non-empty at the end is a
malformed-input error.  The `repeatCount < 0` check of the source cannot fire
over `Nat` and the `isNaN` check corresponds to `parseIntDec _ = none`. -/
def decompressLoop : List Char → List Char → Except String (List Char)
  | [], countBuffer =>
      if countBuffer.isEmpty then .ok []
      else .error "Invalid compressed data: Compressed string cannot end with a number."
  | ch :: rest, countBuffer =>
      if isDigitChar ch then decompressLoop rest (countBuffer ++ [ch])
      else
        match (if countBuffer.isEmpty then some 1 else parseIntDec countBuffer) with
        | none => .error "Invalid compressed data: Bad repeat count"
        | some repeatCount =>
            (decompressLoop rest []).map
              (fun r => List.replicate repeatCount ch ++ r)

/-- `RLECompression.decompress`. -/
def decompress (compressed : List Char) : Except String (List Char) :=
  if compressed.isEmpty then .ok []
  else decompressLoop compressed []

end RLECompression

namespace LZWCompression

/-- The seed dictionary of `compress`: each single character of code point
`0`–`255` (`String.fromCharCode(i)`) mapped to its own code point. -/
def seedDict : List (List Char × Nat) :=
  (List.range 256).map (fun i => ([Char.ofNat i], i))

/-- The seed of the mirror dictionary of `decompress`: code `i` mapped to the
single character of code point `i`, for `i = 0`–`255`. -/
def seedInvDict : List (Nat × List Char) :=
  (List.range 256).map (fun i => (i, [Char.ofNat i]))

/-- The scan loop of `LZWCompression.compress`.  `none` models the
`dictionary.get(...)!` non-null assertion being wrong (the phrase looked up is
absent, so `undefined` would leak into the output). -/
def compressLoop (dictionary : List (List Char × Nat)) (dictSize : Nat)
    (currentPhrase : List Char) : List Char → Option (List Nat)
  | [] =>
      if currentPhrase.isEmpty then some []
      else (List.lookup currentPhrase dictionary).map (fun code => [code])
  | ch :: rest =>
      let newPhrase := currentPhrase ++ [ch]
      if (List.lookup newPhrase dictionary).isSome then
        compressLoop dictionary dictSize newPhrase rest
      else
        match List.lookup currentPhrase dictionary with
        | none => none
        | some code =>
            (compressLoop ((newPhrase, dictSize) :: dictionary) (dictSize + 1)
                [ch] rest).map (fun codes => code :: codes)

/-- `LZWCompression.compress` (the emitted code sequence; see the header on
the comma-joined rendering). -/
def compress (text : List Char) : Option (List Nat) :=
  if text.isEmpty then some [] else compressLoop seedDict 256 [] text

/-- The decode loop of `LZWCompression.decompress` over the codes after the
first: a code present in the mirror dictionary decodes to its phrase; a code
equal to the next free code decodes to `prevPhrase + prevPhrase[0]`; any other
code throws.  `List.headI` models the string indexing `s[0]` (its default is
only reached on phrases that are never empty in actual runs). -/
def decompressLoop (dictionary : List (Nat × List Char)) (dictSize : Nat)
    (prevPhrase : List Char) : List Nat → Except String (List Char)
  | [] => .ok []
  | currentCode :: rest =>
      let entryE : Except String (List Char) :=
        match List.lookup currentCode dictionary with
        | some e => .ok e
        | none =>
            if currentCode = dictSize then .ok (prevPhrase ++ [prevPhrase.headI])
            else .error "Invalid compressed data: Code is out of dictionary bounds."
      match entryE with
      | .error msg => .error msg
      | .ok entry =>
          (decompressLoop ((dictSize, prevPhrase ++ [entry.headI]) :: dictionary)
              (dictSize + 1) entry rest).map (fun out => entry ++ out)

/-- `LZWCompression.decompress`: the first code must resolve in the seed
dictionary; the rest are handled by `decompressLoop`. -/
def decompress (codes : List Nat) : Except String (List Char) :=
  match codes with
  | [] => .ok []
  | firstCode :: rest =>
      match List.lookup firstCode seedInvDict with
      | none => .error "Invalid compressed data: First code is not in initial dictionary."
      | some phrase =>
          (decompressLoop seedInvDict 256 phrase rest).map (fun out => phrase ++ out)

end LZWCompression

/-! ## The Huffman codec file: `MinHeap` and `HuffmanCompression` -/

/-- The `MinHeap<T>` class: a binary min-heap over a backing array with a
caller-supplied comparator. -/
structure MinHeap (α : Type) where
  heap : List α
  comparator : α → α → Int

/-- The destructuring swap
`[this.heap[i], this.heap[j]] = [this.heap[j], this.heap[i]]` used by
`bubbleUp` and `bubbleDown` (indices are in bounds at every use site). -/
def listSwap {α : Type} (l : List α) (i j : Nat) : List α :=
  match l[i]?, l[j]? with
  | some a, some b => (l.set i b).set j a
  | _, _ => l

/-- `MinHeap.bubbleUp`, as a recursion on the moving index (the parent index
`Math.floor((index - 1) / 2)` of `i + 1` is `i / 2`).  The `while (index > 0)`
loop stops when the element is not smaller than its parent. -/
def bubbleUp {α : Type} (comparator : α → α → Int) (l : List α) (index : Nat) : List α :=
  match index with
  | 0 => l
  | i + 1 =>
      match l[i + 1]?, l[i / 2]? with
      | some x, some par =>
          if comparator x par < 0 then
            bubbleUp comparator (listSwap l (i + 1) (i / 2)) (i / 2)
          else l
      | _, _ => l
termination_by index
decreasing_by omega

/-- One candidate-child test of `bubbleDown`: move `smallestIndex` from `i` to
the child index `j` when `j` is in bounds (`j <= lastIndex`, i.e. `l[j]?` is
`some`) and the child compares smaller. -/
def childMin {α : Type} (comparator : α → α → Int) (l : List α) (i j : Nat) : Nat :=
  match l[j]?, l[i]? with
  | some a, some b => if comparator a b < 0 then j else i
  | _, _ => i

/-- `MinHeap.bubbleDown`: compare with the left child (`2i + 1`) then the
right child (`2i + 2`), swap toward the smaller child and continue there, stop
when no child is smaller. -/
def bubbleDown {α : Type} (comparator : α → α → Int) (l : List α) (index : Nat) : List α :=
  let smallestIndex :=
    childMin comparator l (childMin comparator l index (2 * index + 1)) (2 * index + 2)
  if _h : smallestIndex ≠ index then
    bubbleDown comparator (listSwap l index smallestIndex) smallestIndex
  else l
termination_by l.length - index
decreasing_by
  have hcm : ∀ i j : Nat, childMin comparator l i j = i ∨
      (childMin comparator l i j = j ∧ j < l.length) := by
    intro i j
    unfold childMin
    split
    next a b heq1 _ =>
      have hj : j < l.length := (List.getElem?_eq_some_iff.mp heq1).fst
      split
      · exact Or.inr ⟨rfl, hj⟩
      · exact Or.inl rfl
    next => exact Or.inl rfl
  have hlen : ∀ (m : List α) (i j : Nat), (listSwap m i j).length = m.length := by
    intro m i j
    unfold listSwap
    split
    · simp
    · rfl
  rw [hlen]
  rcases hcm (childMin comparator l index (2 * index + 1)) (2 * index + 2) with h2 | ⟨h2, hb2⟩ <;>
    rcases hcm index (2 * index + 1) with h1 | ⟨h1, hb1⟩ <;>
    omega

/-- `MinHeap.size`. -/
def MinHeap.size {α : Type} (h : MinHeap α) : Nat := h.heap.length

/-- `MinHeap.isEmpty`. -/
def MinHeap.isEmpty {α : Type} (h : MinHeap α) : Bool := h.heap.isEmpty

/-- `MinHeap.insert`: push the item at the end of the array and bubble it up
from the last index. -/
def MinHeap.insert {α : Type} (h : MinHeap α) (item : α) : MinHeap α :=
  let pushed := h.heap ++ [item]
  ⟨bubbleUp h.comparator pushed (pushed.length - 1), h.comparator⟩

/-- `MinHeap.extractMin`, returning the extracted minimum (if any) together
with the updated heap: empty heap gives `none`; a singleton is popped; else
the root is saved, the popped last element is moved to the root and bubbled
down. -/
def MinHeap.extractMin {α : Type} (h : MinHeap α) : Option α × MinHeap α :=
  match h.heap with
  | [] => (none, h)
  | [x] => (some x, ⟨[], h.comparator⟩)
  | x :: y :: rest =>
      let l := x :: y :: rest
      (some x,
       ⟨bubbleDown h.comparator ((l.dropLast).set 0 (l.getLast (by simp))) 0,
        h.comparator⟩)

/-- The TS `HuffmanNode` interface: an optional character (absent on internal
nodes), a frequency, and optional children. -/
inductive HuffmanNode : Type where
  | mk (char : Option Char) (freq : Nat) (left : Option HuffmanNode)
      (right : Option HuffmanNode)

/-- Field accessor `node.char`. -/
def HuffmanNode.char : HuffmanNode → Option Char
  | .mk c _ _ _ => c

/-- Field accessor `node.freq`. -/
def HuffmanNode.freq : HuffmanNode → Nat
  | .mk _ f _ _ => f

/-- Field accessor `node.left`. -/
def HuffmanNode.left : HuffmanNode → Option HuffmanNode
  | .mk _ _ l _ => l

/-- Field accessor `node.right`. -/
def HuffmanNode.right : HuffmanNode → Option HuffmanNode
  | .mk _ _ _ r => r

/-- The leaf test used by the Huffman code
(`node.char !== undefined && !node.left && !node.right`). -/
def HuffmanNode.isLeafShape (n : HuffmanNode) : Bool :=
  n.char.isSome && n.left.isNone && n.right.isNone

/-- Well-shapedness of the trees `buildHuffmanTree` constructs: a node is
either a leaf (a character, no children) or an internal node (no character,
both children well-shaped).  Parsed trees in general need not satisfy this. -/
def HuffmanNode.wf : HuffmanNode → Bool
  | .mk (some _) _ none none => true
  | .mk none _ (some l) (some r) => l.wf && r.wf
  | _ => false

/-- The characters sitting at leaf-shaped positions of a tree. -/
def HuffmanNode.leafChars : HuffmanNode → List Char
  | .mk (some c) _ none none => [c]
  | .mk _ _ left right =>
      (match left with | some l => l.leafChars | none => []) ++
        (match right with | some r => r.leafChars | none => [])

/-- Node count of a tree (the induction measure used by the proofs about the
recursive tree functions). -/
def HuffmanNode.size : HuffmanNode → Nat
  | .mk _ _ left right =>
      1 + (match left with | some l => l.size | none => 0) +
        (match right with | some r => r.size | none => 0)

/-- `pathOk c n p`: following the bit path `p` (characters `'0'`/`'1'`) from
`n`, every required child exists and the walk ends at a leaf-shaped node
holding the character `c`.  This is the specification that ties the codes
produced by `buildEncodingMap` to the walk done by `decompress`. -/
def pathOk (c : Char) : HuffmanNode → List Char → Bool
  | n, [] =>
      match n with
      | .mk (some c') _ none none => c' = c
      | _ => false
  | n, bit :: p =>
      if bit = '0' then
        match n.left with
        | some l => pathOk c l p
        | none => false
      else if bit = '1' then
        match n.right with
        | some r => pathOk c r p
        | none => false
      else false

namespace HuffmanCompression

/-- `HuffmanCompression.buildFrequencyMap`:
`freqMap.set(char, (freqMap.get(char) || 0) + 1)` over the text. -/
def buildFrequencyMap (text : List Char) : List (Char × Nat) :=
  text.foldl (fun freqMap ch => assocSet ch ((List.lookup ch freqMap).getD 0 + 1) freqMap) []

/-- The comparator `(a, b) => a.freq - b.freq` given to the min-heap. -/
def huffCmp (a b : HuffmanNode) : Int :=
  (a.freq : Int) - (b.freq : Int)

/-- The `while (minHeap.size() > 1)` loop of `buildHuffmanTree`: extract the
two smallest nodes, combine them into an internal parent (first extracted =
left), reinsert.  Each iteration removes a net one element, so the loop runs
fewer times than the initial heap size; `buildHuffmanTree` passes that size as
the structurally decreasing bound `fuel` (`huffLoop` only ever stops because
of the `size > 1` guard — see the spec lemmas below). -/
def huffLoop : Nat → MinHeap HuffmanNode → MinHeap HuffmanNode
  | 0, minHeap => minHeap
  | fuel + 1, minHeap =>
      if minHeap.size > 1 then
        match minHeap.extractMin with
        | (some left, h1) =>
            match h1.extractMin with
            | (some right, h2) =>
                huffLoop fuel
                  (h2.insert (HuffmanNode.mk none (left.freq + right.freq)
                    (some left) (some right)))
            | (none, h2) => h2
        | (none, h1) => h1
      else minHeap

/-- `HuffmanCompression.buildHuffmanTree`: seed the heap with one leaf per
frequency-map entry; if only one node, return it (degenerate case); otherwise
run the combining loop and extract the root (`extractMin() || null`). -/
def buildHuffmanTree (freqMap : List (Char × Nat)) : Option HuffmanNode :=
  let minHeap : MinHeap HuffmanNode :=
    freqMap.foldl
      (fun h cf => h.insert (HuffmanNode.mk (some cf.1) cf.2 none none))
      ⟨[], huffCmp⟩
  if minHeap.size = 1 then (minHeap.extractMin).1
  else ((huffLoop minHeap.size minHeap).extractMin).1

/-- The inner `traverse(node, code)` of `buildEncodingMap`: at a leaf, store
its code (`"0"` when the accumulated code is empty, the single-root special
case); otherwise traverse the existing children, appending `'0'` left and
`'1'` right. -/
def traverse : HuffmanNode → List Char → List (Char × List Char) → List (Char × List Char)
  | .mk (some c) _ none none, code, encodingMap =>
      assocSet c (if code = [] then ['0'] else code) encodingMap
  | .mk _ _ left right, code, encodingMap =>
      let m1 := match left with
        | some l => traverse l (code ++ ['0']) encodingMap
        | none => encodingMap
      match right with
      | some r => traverse r (code ++ ['1']) m1
      | none => m1

/-- `HuffmanCompression.buildEncodingMap` (empty for a `null` root). -/
def buildEncodingMap : Option HuffmanNode → List (Char × List Char)
  | none => []
  | some root => traverse root [] []

/-- The encoding pass of `compress`: `compressed += encodingMap.get(char)` for
each character.  A missing entry would append the string `"undefined"` in
JavaScript; that is modelled literally (it is unreachable: every character of
the text has an entry). -/
def huffEncodeText (encodingMap : List (Char × List Char)) : List Char → List Char
  | [] => []
  | ch :: rest =>
      (match List.lookup ch encodingMap with
       | some code => code
       | none => "undefined".toList) ++ huffEncodeText encodingMap rest

/-- The result record of `HuffmanCompression.compress` (`tree` is the
serialized-tree interchange value, see the header; `""` is `none`). -/
structure HuffmanCompressionResult where
  compressed : List Char
  tree : Option HuffmanNode
  originalCharForSingle : Option Char

/-- `HuffmanCompression.compress`. -/
def compress (text : List Char) : HuffmanCompressionResult :=
  if text.isEmpty then ⟨[], none, none⟩
  else
    let freqMap := buildFrequencyMap text
    if freqMap.length = 1 then
      match freqMap with
      | (char, freqv) :: _ =>
          ⟨List.replicate text.length '0',
           some (HuffmanNode.mk (some char) freqv none none), some char⟩
      | [] => ⟨[], none, none⟩
    else
      match buildHuffmanTree freqMap with
      | none => ⟨[], none, none⟩
      | some tree =>
          ⟨huffEncodeText (buildEncodingMap (some tree)) text, some tree, none⟩

/-- The sentinel string the decoder returns (as a normal value) on malformed
data. -/
def errorSentinel : List Char := "ERROR: Malformed data".toList

/-- The bit-walk loop of `decompress`: descend by `'0'`/`'1'`; on reaching a
leaf-shaped node append its character and restart from the root.  `none`
models the three `return "ERROR: Malformed data"` paths (a bad bit or a
missing child; the partial `result` accumulated so far is discarded by the
early return). -/
def decodeLoop (root : HuffmanNode) : HuffmanNode → List Char → Option (List Char)
  | _, [] => some []
  | currentNode, bit :: rest =>
      if bit = '0' then
        match currentNode.left with
        | some next =>
            match next with
            | .mk (some c) _ none none =>
                (decodeLoop root root rest).map (fun out => c :: out)
            | _ => decodeLoop root next rest
        | none => none
      else if bit = '1' then
        match currentNode.right with
        | some next =>
            match next with
            | .mk (some c) _ none none =>
                (decodeLoop root root rest).map (fun out => c :: out)
            | _ => decodeLoop root next rest
        | none => none
      else none

/-- `HuffmanCompression.decompress`: empty compressed data or an absent tree
returns `""`; a single-leaf tree repeats its character once per compressed
character; otherwise walk the bits.  The function never throws: its failure
paths return the sentinel string as a normal value. -/
def decompress (compressed : List Char) (tree : Option HuffmanNode) :
    Except String (List Char) :=
  match tree with
  | none => .ok []
  | some t =>
      if compressed.isEmpty then .ok []
      else
        match t with
        | .mk (some c) _ none none => .ok (List.replicate compressed.length c)
        | _ =>
            match decodeLoop t t compressed with
            | some result => .ok result
            | none => .ok errorSentinel

end HuffmanCompression

/-! ## Generic lemmas: characters, decimal rendering, association lists -/

/-- `Char.ofNat` of a valid code point has that code point as `toNat`. -/
theorem char_toNat_ofNat (n : Nat) (h : n.isValidChar) : (Char.ofNat n).toNat = n := by
  simp only [Char.ofNat, h, dif_pos, Char.ofNatAux, Char.toNat]
  rfl

/-- Code points below `0xD800` are valid, so below `256` in particular. -/
theorem char_toNat_ofNat_small {n : Nat} (h : n < 55296) : (Char.ofNat n).toNat = n :=
  char_toNat_ofNat n (Or.inl h)

/-- `List.lookup` at the head key. -/
theorem lookup_cons_eq {α β : Type} [BEq α] [LawfulBEq α] (k : α) (v : β) (l : List (α × β)) :
    List.lookup k ((k, v) :: l) = some v := by
  simp [List.lookup]

/-- `List.lookup` skips a head pair with a different key. -/
theorem lookup_cons_ne {α β : Type} [BEq α] [LawfulBEq α] {k k' : α} (h : k ≠ k') (v : β)
    (l : List (α × β)) : List.lookup k ((k', v) :: l) = List.lookup k l := by
  simp [List.lookup, beq_eq_false_iff_ne.mpr h]

/-- A successful `List.lookup` pair is a member of the list. -/
theorem lookup_mem_of_eq_some {α β : Type} [BEq α] [LawfulBEq α] {l : List (α × β)} {k : α} {v : β}
    (h : List.lookup k l = some v) : (k, v) ∈ l := by
  induction l with
  | nil => simp [List.lookup] at h
  | cons p rest ih =>
      rcases p with ⟨k', v'⟩
      by_cases hk : k = k'
      · subst hk
        rw [lookup_cons_eq] at h
        simp at h
        simp [h]
      · rw [lookup_cons_ne hk] at h
        exact List.mem_cons_of_mem _ (ih h)

/-- A key occurring in the list is found by `List.lookup`. -/
theorem lookup_isSome_of_mem_keys {α β : Type} [BEq α] [LawfulBEq α] {l : List (α × β)} {k : α}
    (h : k ∈ l.map Prod.fst) : (List.lookup k l).isSome := by
  induction l with
  | nil => simp at h
  | cons p rest ih =>
      rcases p with ⟨k', v'⟩
      by_cases hk : k = k'
      · subst hk; simp [lookup_cons_eq]
      · simp only [List.map_cons, List.mem_cons] at h
        rcases h with h | h
        · exact absurd h hk
        · rw [lookup_cons_ne hk]
          exact ih h

/-- Looking up the key just written by `assocSet` yields the written value. -/
theorem lookup_assocSet_self {α β : Type} [DecidableEq α] [BEq α] [LawfulBEq α] (k : α) (v : β)
    (m : List (α × β)) :
    List.lookup k (assocSet k v m) = some v := by
  induction m with
  | nil => simp [assocSet, lookup_cons_eq]
  | cons p rest ih =>
      rcases p with ⟨k', v'⟩
      by_cases hk : k' = k
      · subst hk; simp [assocSet, lookup_cons_eq]
      · rw [assocSet, if_neg hk, lookup_cons_ne (fun h => hk h.symm)]
        exact ih

/-- `assocSet` leaves the lookup of every other key unchanged. -/
theorem lookup_assocSet_ne {α β : Type} [DecidableEq α] [BEq α] [LawfulBEq α] {c k : α}
    (hck : c ≠ k) (v : β)
    (m : List (α × β)) : List.lookup c (assocSet k v m) = List.lookup c m := by
  induction m with
  | nil => simp [assocSet, List.lookup, beq_eq_false_iff_ne.mpr hck]
  | cons p rest ih =>
      rcases p with ⟨k', v'⟩
      by_cases hk : k' = k
      · subst hk
        rw [assocSet, if_pos rfl, lookup_cons_ne hck, lookup_cons_ne hck]
      · by_cases hc : c = k'
        · subst hc
          rw [assocSet, if_neg hk, lookup_cons_eq, lookup_cons_eq]
        · rw [assocSet, if_neg hk, lookup_cons_ne hc, lookup_cons_ne hc]
          exact ih

/-- Every digit character rendered by `natToDecChars` satisfies `isDigitChar`. -/
theorem natToDecChars_all_digits (n : Nat) : ∀ c ∈ natToDecChars n, isDigitChar c := by
  intro c hc
  simp only [natToDecChars, List.mem_map, List.mem_reverse] at hc
  obtain ⟨d, hd, rfl⟩ := hc
  have hdlt : d < 10 := Nat.digits_lt_base (by norm_num) hd
  have : (Char.ofNat (48 + d)).toNat = 48 + d := char_toNat_ofNat_small (by omega)
  simp [isDigitChar, this]
  omega

/-- The rendering of a positive count is non-empty. -/
theorem natToDecChars_ne_nil {n : Nat} (h : n ≠ 0) : natToDecChars n ≠ [] := by
  simp only [natToDecChars, ne_eq, List.map_eq_nil_iff, List.reverse_eq_nil_iff]
  exact (Nat.digits_ne_nil_iff_ne_zero).mpr h

/-- Evaluating the decimal fold of `parseIntDec` over a rendered digit list
recovers the number (most-significant-first fold versus the
least-significant-first `Nat.ofDigits`). -/
theorem foldl_dec_digits (L : List Nat) (hall : ∀ d ∈ L, d < 10) :
    ((L.reverse.map (fun d => Char.ofNat (48 + d))).foldl
      (fun acc c => 10 * acc + (c.toNat - 48)) 0) = Nat.ofDigits 10 L := by
  induction L with
  | nil => simp [Nat.ofDigits]
  | cons d L ih =>
      have hd : d < 10 := hall d (by simp)
      have hall' : ∀ x ∈ L, x < 10 := fun x hx => hall x (by simp [hx])
      have htn : (Char.ofNat (48 + d)).toNat = 48 + d :=
        char_toNat_ofNat_small (by omega)
      simp only [List.reverse_cons, List.map_append, List.map_cons, List.map_nil,
        List.foldl_concat, ih hall', Nat.ofDigits_cons, htn]
      omega

/-- `parseInt` inverts `toString` on positive counts. -/
theorem parseIntDec_natToDecChars {n : Nat} (h : 1 ≤ n) :
    parseIntDec (natToDecChars n) = some n := by
  have hall := natToDecChars_all_digits n
  have htw : (natToDecChars n).takeWhile isDigitChar = natToDecChars n :=
    List.takeWhile_eq_self_iff.mpr hall
  have hne : (natToDecChars n).isEmpty = false := by
    simp [List.isEmpty_iff, natToDecChars_ne_nil (by omega : n ≠ 0)]
  have hfold := foldl_dec_digits (Nat.digits 10 n)
    (fun d hd => Nat.digits_lt_base (by norm_num) hd)
  simp only [parseIntDec]
  rw [htw, if_neg (by simp [hne])]
  unfold natToDecChars
  rw [hfold, Nat.ofDigits_digits]

/-! ## RLE: round-trip on digit-free text, and trailing-digit errors -/

namespace RLECompression

/-- The compressor's output is never empty (each run ends with its literal
character). -/
theorem compressLoop_ne_nil (rest : List Char) (c : Char) (count : Nat) :
    compressLoop rest c count ≠ [] := by
  induction rest generalizing c count with
  | nil => simp [compressLoop, encodeRun]
  | cons x rest ih =>
      by_cases hx : x = c <;> simp [compressLoop, hx, encodeRun, ih]

/-- Feeding a block of digit characters into the decode loop only moves them
into the count buffer. -/
theorem decompressLoop_digits (ds : List Char) (hds : ∀ c ∈ ds, isDigitChar c) :
    ∀ (t buf : List Char), decompressLoop (ds ++ t) buf = decompressLoop t (buf ++ ds) := by
  induction ds with
  | nil => simp
  | cons d ds ih =>
      intro t buf
      have hd : isDigitChar d := hds d (by simp)
      have hds' : ∀ c ∈ ds, isDigitChar c := fun c hc => hds c (by simp [hc])
      simp only [List.cons_append, decompressLoop, hd, if_true, List.append_eq]
      rw [ih hds' t (buf ++ [d])]
      simp

/-- Decoding one encoded run prepends `count` copies of its character. -/
theorem decompressLoop_encodeRun (count : Nat) (c : Char) (t : List Char)
    (hcount : 1 ≤ count) (hc : ¬ isDigitChar c) :
    decompressLoop (encodeRun count c ++ t) [] =
      (decompressLoop t []).map (fun r => List.replicate count c ++ r) := by
  rcases Nat.lt_or_ge count 2 with h2 | h2
  · have hc1 : count = 1 := by omega
    subst hc1
    simp [encodeRun, decompressLoop, hc]
  · have hgt : count > 1 := by omega
    have hfeed := decompressLoop_digits (natToDecChars count)
      (natToDecChars_all_digits count) (c :: t) []
    have hne : natToDecChars count ≠ [] := natToDecChars_ne_nil (by omega)
    simp only [encodeRun, if_pos hgt, List.append_assoc, List.singleton_append] at *
    rw [hfeed]
    simp only [decompressLoop, hc, if_false, List.nil_append,
      List.isEmpty_iff, hne, if_false, parseIntDec_natToDecChars (by omega : 1 ≤ count)]
    simp

/-- Round-trip of the loops: decoding the encoding of `count` copies of `c`
followed by `rest` recovers exactly that text, provided no digit characters
are involved. -/
theorem decompressLoop_compressLoop (rest : List Char) (c : Char) (count : Nat)
    (hcount : 1 ≤ count) (hc : ¬ isDigitChar c)
    (hrest : ∀ x ∈ rest, ¬ isDigitChar x) :
    decompressLoop (compressLoop rest c count) [] =
      .ok (List.replicate count c ++ rest) := by
  induction rest generalizing c count with
  | nil =>
      have := decompressLoop_encodeRun count c [] hcount hc
      simp only [List.append_nil] at this
      simp [compressLoop, this, decompressLoop, Except.map]
  | cons x rest ih =>
      by_cases hx : x = c
      · subst hx
        rw [compressLoop, if_pos rfl, ih x (count + 1) (by omega) hc
            (fun y hy => hrest y (by simp [hy]))]
        rw [List.replicate_succ' count x]
        simp
      · have hxd : ¬ isDigitChar x := hrest x (by simp)
        rw [compressLoop, if_neg hx, decompressLoop_encodeRun count c _ hcount hc,
          ih x 1 (by omega) hxd (fun y hy => hrest y (by simp [hy]))]
        simp [Except.map]

/-- Digit-free round-trip for the RLE codec. -/
theorem rle_roundtrip (text : List Char) (h : ∀ ch ∈ text, ¬ isDigitChar ch) :
    decompress (compress text) = .ok text := by
  cases text with
  | nil => simp [compress, decompress]
  | cons c rest =>
      have hloop := decompressLoop_compressLoop rest c 1 (by omega)
        (h c (by simp)) (fun y hy => h y (by simp [hy]))
      simp only [compress, decompress, List.isEmpty_iff, compressLoop_ne_nil, if_false]
      simpa using hloop

/-- A compressed string ending in a digit makes the decode loop fail, whatever
is already in the count buffer. -/
theorem decompressLoop_trailing_digit (s : List Char) (hne : s ≠ [])
    (hd : isDigitChar (s.getLast hne)) :
    ∀ buf : List Char, ∃ e, decompressLoop s buf = .error e := by
  induction s with
  | nil => exact absurd rfl hne
  | cons x s ih =>
      intro buf
      cases s with
      | nil =>
          simp only [List.getLast_singleton] at hd
          refine ⟨"Invalid compressed data: Compressed string cannot end with a number.", ?_⟩
          rw [decompressLoop, if_pos hd, decompressLoop, if_neg (by simp)]
      | cons y s' =>
          have hlast : isDigitChar ((y :: s').getLast (by simp)) := by
            simpa [List.getLast_cons] using hd
          by_cases hx : isDigitChar x
          · obtain ⟨e, he⟩ := ih (by simp) hlast (buf ++ [x])
            exact ⟨e, by rw [decompressLoop, if_pos hx]; exact he⟩
          · rcases hmatch : (if buf.isEmpty then some 1 else parseIntDec buf) with _ | n
            · exact ⟨"Invalid compressed data: Bad repeat count",
                by rw [decompressLoop, if_neg hx, hmatch]⟩
            · obtain ⟨e, he⟩ := ih (by simp) hlast []
              refine ⟨e, ?_⟩
              rw [decompressLoop, if_neg hx, hmatch, he]
              rfl

end RLECompression

/-! ## LZW: seed-dictionary lemmas, compressor/decompressor simulation -/

/-- Lookup of the `k`-th key in a table built over `List.range n` by an
injective key function. -/
theorem lookup_range_map {κ β : Type} [BEq κ] [LawfulBEq κ] (f : Nat → κ) (g : Nat → β) (n k : Nat)
    (hinj : ∀ i j, i < n → j < n → f i = f j → i = j) (hk : k < n) :
    List.lookup (f k) ((List.range n).map (fun i => (f i, g i))) = some (g k) := by
  induction n with
  | zero => omega
  | succ n ih =>
      rw [List.range_succ, List.map_append, List.lookup_append]
      by_cases hkn : k < n
      · rw [ih (fun i j hi hj => hinj i j (by omega) (by omega)) hkn]
        rfl
      · have hk' : k = n := by omega
        subst hk'
        have hnone : List.lookup (f k) ((List.range k).map (fun i => (f i, g i))) = none := by
          rw [List.lookup_eq_none_iff]
          intro p hp
          simp only [List.mem_map, List.mem_range] at hp
          obtain ⟨i, hi, rfl⟩ := hp
          simp only [bne_iff_ne, ne_eq]
          exact fun hfi => absurd (hinj k i (by omega) (by omega) hfi) (by omega)
        rw [hnone]
        simp [lookup_cons_eq]

/-- Lookup of a key that is not in a table built over `List.range n`. -/
theorem lookup_range_map_none {κ β : Type} [BEq κ] [LawfulBEq κ] (f : Nat → κ) (g : Nat → β) (n : Nat)
    (key : κ) (hkey : ∀ i, i < n → f i ≠ key) :
    List.lookup key ((List.range n).map (fun i => (f i, g i))) = none := by
  rw [List.lookup_eq_none_iff]
  intro p hp
  simp only [List.mem_map, List.mem_range] at hp
  obtain ⟨i, hi, rfl⟩ := hp
  simp only [bne_iff_ne, ne_eq]
  exact fun h => (hkey i hi) h.symm

namespace LZWCompression

/-- Every character of code point below 256 is found in the seed dictionary
under its own code point. -/
theorem lookup_seedDict {c : Char} (h : c.toNat < 256) :
    List.lookup [c] seedDict = some c.toNat := by
  have hc : [c] = [Char.ofNat c.toNat] := by rw [Char.ofNat_toNat]
  rw [seedDict, hc]
  exact lookup_range_map (fun i => [Char.ofNat i]) (fun i => i) 256 c.toNat
    (fun i j hi hj hf => by
      have h1 : (Char.ofNat i).toNat = i := char_toNat_ofNat_small (by omega)
      have h2 : (Char.ofNat j).toNat = j := char_toNat_ofNat_small (by omega)
      have hij : Char.ofNat i = Char.ofNat j := by simpa using hf
      rw [← h1, ← h2, hij]) h

/-- Characterization of successful seed-dictionary lookups: the code is below
256 and the phrase is the corresponding single character. -/
theorem lookup_seedDict_some {ph : List Char} {v : Nat}
    (h : List.lookup ph seedDict = some v) : v < 256 ∧ ph = [Char.ofNat v] := by
  have hmem := lookup_mem_of_eq_some h
  simp only [seedDict, List.mem_map, List.mem_range] at hmem
  obtain ⟨i, hi, heq⟩ := hmem
  cases heq
  exact ⟨hi, rfl⟩

/-- Every code below 256 is found in the seed mirror dictionary, mapped to its
single character. -/
theorem lookup_seedInvDict {v : Nat} (h : v < 256) :
    List.lookup v seedInvDict = some [Char.ofNat v] := by
  rw [seedInvDict]
  exact lookup_range_map (fun i => i) (fun i => [Char.ofNat i]) 256 v (fun i j _ _ hij => hij) h

/-- Codes at or above 256 are absent from the seed mirror dictionary. -/
theorem lookup_seedInvDict_none {v : Nat} (h : 256 ≤ v) :
    List.lookup v seedInvDict = none := by
  rw [seedInvDict]
  exact lookup_range_map_none (fun i => i) (fun i => [Char.ofNat i]) 256 v
    (fun i hi => (by omega : i ≠ v))

/-- Phrases of length other than one are absent from the seed dictionary. -/
theorem lookup_seedDict_none_of_len {ph : List Char} (h : ph.length ≠ 1) :
    List.lookup ph seedDict = none := by
  rcases hl : List.lookup ph seedDict with _ | v
  · rfl
  · obtain ⟨-, rfl⟩ := lookup_seedDict_some hl
    simp at h

end LZWCompression

namespace LZWCompression

/-- One decoder step, in lockstep with the compressor: when the compressor
emits the code `cp` of its current phrase `p`, the decoder — whose mirror
dictionary `DD` holds every encoder entry except the one at code `s - 1`,
which is `q ++ [p.headI]` (`q` the previously decoded phrase) — decodes `cp`
back to `p` (through the mirror dictionary if `cp < s - 1`, through the
self-referential next-free-code branch if `cp = s - 1`) and inserts exactly
the encoder's `s - 1` entry, re-synchronizing the dictionaries. -/
theorem decode_step (ED : List (List Char × Nat)) (DD : List (Nat × List Char))
    (s cp : Nat) (p q : List Char) (cs' : List Nat)
    (hs : 257 ≤ s) (hq : q ≠ [])
    (inj : ∀ p₁ p₂ v, List.lookup p₁ ED = some v → List.lookup p₂ ED = some v → p₁ = p₂)
    (mirror : ∀ ph v, List.lookup ph ED = some v → v < s - 1 → List.lookup v DD = some ph)
    (upper : ∀ v, s - 1 ≤ v → List.lookup v DD = none)
    (htop : List.lookup (q ++ [p.headI]) ED = some (s - 1))
    (hcp : List.lookup p ED = some cp) (hlt : cp < s) :
    decompressLoop DD (s - 1) q (cp :: cs') =
      (decompressLoop ((s - 1, q ++ [p.headI]) :: DD) s p cs').map (fun out => p ++ out) := by
  have hs1 : s - 1 + 1 = s := by omega
  by_cases hc : cp < s - 1
  · have hdd := mirror p cp hcp hc
    simp only [decompressLoop, hdd, hs1]
  · have hceq : cp = s - 1 := by omega
    have htop' : List.lookup p ED = some (s - 1) := by rw [← hceq]; exact hcp
    have hpq : p = q ++ [p.headI] := inj p (q ++ [p.headI]) (s - 1) htop' htop
    obtain ⟨a, q', rfl⟩ : ∃ a q', q = a :: q' := by
      cases q with
      | nil => exact absurd rfl hq
      | cons a q' => exact ⟨a, q', rfl⟩
    have hhead : p.headI = (a :: q').headI := by
      conv_lhs => rw [hpq]
      simp [List.headI]
    have hp2 : p = (a :: q') ++ [(a :: q').headI] := by
      conv_lhs => rw [hpq, hhead]
    have hdd : List.lookup (s - 1) DD = none := upper _ (by omega)
    simp only [decompressLoop, hdd, hceq, hs1, ← hp2, if_true]

/-- Simulation of the LZW decoder against the compressor scan loop, from any
pair of synchronized states: the compressor succeeds (every lookup it performs
hits) and the decoder reconstructs the current phrase followed by the rest of
the text.  The synchronization invariant is spelled out in the hypotheses:
encoder codes are below `s`, encoder phrases are non-empty, all 256 seed
entries are present, the code assignment is injective, the decoder mirrors
every encoder entry below `s - 1`, has nothing at `s - 1` or above, and the
encoder entry at the top code `s - 1` is the previously decoded phrase `q`
extended by the first character of the current phrase `p`. -/
theorem sim (t : List Char) :
    ∀ (ED : List (List Char × Nat)) (s : Nat) (p q : List Char)
      (DD : List (Nat × List Char)),
      (∀ ph v, List.lookup ph ED = some v → v < s) →
      (∀ ph v, List.lookup ph ED = some v → ph ≠ []) →
      (∀ c : Char, c.toNat < 256 → List.lookup [c] ED = some c.toNat) →
      (∀ p₁ p₂ v, List.lookup p₁ ED = some v → List.lookup p₂ ED = some v → p₁ = p₂) →
      (∀ ph v, List.lookup ph ED = some v → v < s - 1 → List.lookup v DD = some ph) →
      (∀ v, s - 1 ≤ v → List.lookup v DD = none) →
      257 ≤ s →
      q ≠ [] →
      List.lookup (q ++ [p.headI]) ED = some (s - 1) →
      (List.lookup p ED).isSome →
      (∀ c ∈ t, c.toNat < 256) →
      ∃ cs, compressLoop ED s p t = some cs ∧
        decompressLoop DD (s - 1) q cs = .ok (p ++ t) := by
  induction t with
  | nil =>
      intro ED s p q DD codeLt keyNe seed inj mirror upper hs hq htop hcur _hlt
      obtain ⟨cp, hcp⟩ := Option.isSome_iff_exists.mp hcur
      have hpne : p ≠ [] := keyNe p cp hcp
      refine ⟨[cp], ?_, ?_⟩
      · simp only [compressLoop]
        rw [if_neg (by simpa [List.isEmpty_iff] using hpne), hcp]
        rfl
      · rw [decode_step ED DD s cp p q [] hs hq inj mirror upper htop hcp
          (codeLt p cp hcp)]
        simp [decompressLoop, Except.map]
  | cons ch t' ih =>
      intro ED s p q DD codeLt keyNe seed inj mirror upper hs hq htop hcur hlt
      have hch : ch.toNat < 256 := hlt ch (by simp)
      obtain ⟨cp, hcp⟩ := Option.isSome_iff_exists.mp hcur
      have hpne : p ≠ [] := keyNe p cp hcp
      have hheadx : (p ++ [ch]).headI = p.headI := by
        cases p with
        | nil => exact absurd rfl hpne
        | cons a p' => simp [List.headI]
      by_cases hcand : (List.lookup (p ++ [ch]) ED).isSome
      · -- the candidate phrase is in the dictionary: extend, no emission
        obtain ⟨cs, hcs, hdec⟩ := ih ED s (p ++ [ch]) q DD codeLt keyNe seed inj mirror
          upper hs hq (by rw [hheadx]; exact htop) hcand
          (fun c hc => hlt c (by simp [hc]))
        refine ⟨cs, ?_, ?_⟩
        · simp only [compressLoop]
          rw [if_pos hcand]
          exact hcs
        · rw [hdec]
          simp
      · -- the candidate is new: emit the code of `p`, insert the candidate
        have codeLt₂ : ∀ ph v, List.lookup ph ((p ++ [ch], s) :: ED) = some v → v < s + 1 := by
          intro ph v hv
          by_cases hph : ph = p ++ [ch]
          · subst hph; rw [lookup_cons_eq] at hv; cases hv; omega
          · rw [lookup_cons_ne hph] at hv
            have := codeLt ph v hv
            omega
        have keyNe₂ : ∀ ph v, List.lookup ph ((p ++ [ch], s) :: ED) = some v → ph ≠ [] := by
          intro ph v hv
          by_cases hph : ph = p ++ [ch]
          · subst hph; simp
          · rw [lookup_cons_ne hph] at hv
            exact keyNe ph v hv
        have seed₂ : ∀ c : Char, c.toNat < 256 →
            List.lookup [c] ((p ++ [ch], s) :: ED) = some c.toNat := by
          intro c hc
          rw [lookup_cons_ne (fun heq => by
            cases p with
            | nil => exact hpne rfl
            | cons a p' => simp at heq)]
          exact seed c hc
        have inj₂ : ∀ p₁ p₂ v, List.lookup p₁ ((p ++ [ch], s) :: ED) = some v →
            List.lookup p₂ ((p ++ [ch], s) :: ED) = some v → p₁ = p₂ := by
          intro p₁ p₂ v h₁ h₂
          by_cases hp₁ : p₁ = p ++ [ch] <;> by_cases hp₂ : p₂ = p ++ [ch]
          · rw [hp₁, hp₂]
          · subst hp₁
            rw [lookup_cons_eq] at h₁
            rw [lookup_cons_ne hp₂] at h₂
            cases h₁
            exact absurd (codeLt p₂ _ h₂) (by omega)
          · subst hp₂
            rw [lookup_cons_eq] at h₂
            rw [lookup_cons_ne hp₁] at h₁
            cases h₂
            exact absurd (codeLt p₁ _ h₁) (by omega)
          · rw [lookup_cons_ne hp₁] at h₁
            rw [lookup_cons_ne hp₂] at h₂
            exact inj p₁ p₂ v h₁ h₂
        have mirror₂ : ∀ ph v, List.lookup ph ((p ++ [ch], s) :: ED) = some v →
            v < (s + 1) - 1 →
            List.lookup v ((s - 1, q ++ [p.headI]) :: DD) = some ph := by
          intro ph v hv hvlt
          have hvs : v < s := by omega
          by_cases hph : ph = p ++ [ch]
          · subst hph; rw [lookup_cons_eq] at hv; cases hv; omega
          · rw [lookup_cons_ne hph] at hv
            by_cases hv1 : v < s - 1
            · rw [lookup_cons_ne (by omega : v ≠ s - 1)]
              exact mirror ph v hv hv1
            · have hveq : v = s - 1 := by omega
              subst hveq
              have := inj ph (q ++ [p.headI]) (s - 1) hv htop
              subst this
              rw [lookup_cons_eq]
        have upper₂ : ∀ v, (s + 1) - 1 ≤ v →
            List.lookup v ((s - 1, q ++ [p.headI]) :: DD) = none := by
          intro v hv
          rw [lookup_cons_ne (by omega : v ≠ s - 1)]
          exact upper v (by omega)
        have htop₂ : List.lookup (p ++ [([ch] : List Char).headI]) ((p ++ [ch], s) :: ED) =
            some ((s + 1) - 1) := by
          simp only [List.headI, Nat.add_sub_cancel]
          rw [lookup_cons_eq]
        have hcur₂ : (List.lookup [ch] ((p ++ [ch], s) :: ED)).isSome := by
          rw [seed₂ ch hch]
          rfl
        obtain ⟨cs', hcs', hdec'⟩ := ih ((p ++ [ch], s) :: ED) (s + 1) [ch] p
          ((s - 1, q ++ [p.headI]) :: DD) codeLt₂ keyNe₂ seed₂ inj₂ mirror₂ upper₂
          (by omega) hpne htop₂ hcur₂ (fun c hc => hlt c (by simp [hc]))
        have hsimp : (s + 1) - 1 = s := by omega
        rw [hsimp] at hdec'
        refine ⟨cp :: cs', ?_, ?_⟩
        · simp only [compressLoop]
          rw [if_neg hcand, hcp, hcs']
          rfl
        · rw [decode_step ED DD s cp p q cs' hs hq inj mirror upper htop hcp
            (codeLt p cp hcp), hdec']
          simp [Except.map]

end LZWCompression

namespace LZWCompression

/-- LZW round-trip for text over the seeded alphabet (every character of code
point below 256): compression performs only successful dictionary lookups and
decompression recovers the text exactly. -/
theorem lzw_roundtrip_aux (text : List Char) (hlt : ∀ c ∈ text, c.toNat < 256) :
    ∃ cs, compress text = some cs ∧ decompress cs = .ok text := by
  match text with
  | [] => exact ⟨[], rfl, rfl⟩
  | [c] =>
      have hc : c.toNat < 256 := hlt c (by simp)
      refine ⟨[c.toNat], ?_, ?_⟩
      · simp only [compress, List.isEmpty_cons, Bool.false_eq_true, if_false,
          compressLoop, List.nil_append, lookup_seedDict hc, Option.isSome_some, if_true,
          List.isEmpty_cons]
        rfl
      · simp only [decompress, lookup_seedInvDict hc, Char.ofNat_toNat, decompressLoop]
        rfl
  | c₁ :: c₂ :: t =>
      have h₁ : c₁.toNat < 256 := hlt c₁ (by simp)
      have h₂ : c₂.toNat < 256 := hlt c₂ (by simp)
      have ht : ∀ c ∈ t, c.toNat < 256 := fun c hc => hlt c (by simp [hc])
      have codeLt₁ : ∀ ph v, List.lookup ph (([c₁, c₂], 256) :: seedDict) = some v →
          v < 257 := by
        intro ph v hv
        by_cases hph : ph = [c₁, c₂]
        · subst hph; rw [lookup_cons_eq] at hv; cases hv; omega
        · rw [lookup_cons_ne hph] at hv
          have := (lookup_seedDict_some hv).1
          omega
      have keyNe₁ : ∀ ph v, List.lookup ph (([c₁, c₂], 256) :: seedDict) = some v →
          ph ≠ [] := by
        intro ph v hv
        by_cases hph : ph = [c₁, c₂]
        · subst hph; simp
        · rw [lookup_cons_ne hph] at hv
          obtain ⟨-, rfl⟩ := lookup_seedDict_some hv
          simp
      have seed₁ : ∀ c : Char, c.toNat < 256 →
          List.lookup [c] (([c₁, c₂], 256) :: seedDict) = some c.toNat := by
        intro c hc
        rw [lookup_cons_ne (fun heq => by simp at heq)]
        exact lookup_seedDict hc
      have inj₁ : ∀ p₁ p₂ v, List.lookup p₁ (([c₁, c₂], 256) :: seedDict) = some v →
          List.lookup p₂ (([c₁, c₂], 256) :: seedDict) = some v → p₁ = p₂ := by
        intro p₁ p₂ v hv₁ hv₂
        by_cases hp₁ : p₁ = [c₁, c₂] <;> by_cases hp₂ : p₂ = [c₁, c₂]
        · rw [hp₁, hp₂]
        · subst hp₁
          rw [lookup_cons_eq] at hv₁
          rw [lookup_cons_ne hp₂] at hv₂
          cases hv₁
          exact absurd (lookup_seedDict_some hv₂).1 (by omega)
        · subst hp₂
          rw [lookup_cons_eq] at hv₂
          rw [lookup_cons_ne hp₁] at hv₁
          cases hv₂
          exact absurd (lookup_seedDict_some hv₁).1 (by omega)
        · rw [lookup_cons_ne hp₁] at hv₁
          rw [lookup_cons_ne hp₂] at hv₂
          obtain ⟨-, rfl⟩ := lookup_seedDict_some hv₁
          obtain ⟨-, rfl⟩ := lookup_seedDict_some hv₂
          rfl
      have mirror₁ : ∀ ph v, List.lookup ph (([c₁, c₂], 256) :: seedDict) = some v →
          v < 257 - 1 → List.lookup v seedInvDict = some ph := by
        intro ph v hv hvlt
        by_cases hph : ph = [c₁, c₂]
        · subst hph; rw [lookup_cons_eq] at hv; cases hv; omega
        · rw [lookup_cons_ne hph] at hv
          obtain ⟨hvlt', rfl⟩ := lookup_seedDict_some hv
          exact lookup_seedInvDict hvlt'
      have upper₁ : ∀ v, 257 - 1 ≤ v → List.lookup v seedInvDict = none := fun v hv =>
        lookup_seedInvDict_none (by omega)
      have htop₁ : List.lookup ([c₁] ++ [([c₂] : List Char).headI])
          (([c₁, c₂], 256) :: seedDict) = some (257 - 1) := by
        show List.lookup [c₁, c₂] (([c₁, c₂], 256) :: seedDict) = some 256
        exact lookup_cons_eq _ _ _
      have hcur₁ : (List.lookup [c₂] (([c₁, c₂], 256) :: seedDict)).isSome := by
        rw [seed₁ c₂ h₂]
        rfl
      obtain ⟨cs', hcs', hdec'⟩ := sim t (([c₁, c₂], 256) :: seedDict) 257 [c₂] [c₁]
        seedInvDict codeLt₁ keyNe₁ seed₁ inj₁ mirror₁ upper₁ (by omega) (by simp)
        htop₁ hcur₁ ht
      have hdec'' : decompressLoop seedInvDict 256 [c₁] cs' = .ok ([c₂] ++ t) := hdec'
      refine ⟨c₁.toNat :: cs', ?_, ?_⟩
      · have hnone : List.lookup [c₁, c₂] seedDict = none :=
          lookup_seedDict_none_of_len (by simp)
        simp only [compress, List.isEmpty_cons, Bool.false_eq_true, if_false,
          compressLoop, List.nil_append, List.singleton_append, lookup_seedDict h₁,
          Option.isSome_some, if_true, hnone, Option.isSome_none, hcs']
        rfl
      · simp only [decompress, lookup_seedInvDict h₁, Char.ofNat_toNat]
        rw [hdec'']
        simp [Except.map]

end LZWCompression

/-! ## Min-heap lemmas: the array operations preserve length and members -/

/-- `listSwap` preserves the length of the array. -/
theorem length_listSwap {α : Type} (l : List α) (i j : Nat) :
    (listSwap l i j).length = l.length := by
  unfold listSwap
  split
  · simp
  · rfl

/-- `childMin` returns either the incumbent index or an in-bounds child
index. -/
theorem childMin_cases {α : Type} (cmp : α → α → Int) (l : List α) (i j : Nat) :
    childMin cmp l i j = i ∨ (childMin cmp l i j = j ∧ j < l.length) := by
  unfold childMin
  split
  next a b heq1 _ =>
    have hj : j < l.length := (List.getElem?_eq_some_iff.mp heq1).fst
    split
    · exact Or.inr ⟨rfl, hj⟩
    · exact Or.inl rfl
  next => exact Or.inl rfl

/-- `listSwap` permutes the array members. -/
theorem mem_listSwap {α : Type} {x : α} (l : List α) (i j : Nat) :
    x ∈ listSwap l i j ↔ x ∈ l := by
  unfold listSwap
  split
  next a b heq1 heq2 =>
    obtain ⟨hi, ha⟩ := List.getElem?_eq_some_iff.mp heq1
    obtain ⟨hj, hb⟩ := List.getElem?_eq_some_iff.mp heq2
    constructor
    · intro hx
      rcases List.mem_or_eq_of_mem_set hx with hx' | rfl
      · rcases List.mem_or_eq_of_mem_set hx' with hx'' | rfl
        · exact hx''
        · exact hb ▸ List.getElem_mem hj
      · exact ha ▸ List.getElem_mem hi
    · intro hx
      obtain ⟨k, hk, hxk⟩ := List.mem_iff_getElem.mp hx
      by_cases hkj : k = j
      · subst hkj
        by_cases hik : i = k
        · subst hik
          refine List.mem_iff_getElem.mpr ⟨i, by simpa using hi, ?_⟩
          rw [List.getElem_set_self (by simpa using hi), ← ha, hxk]
        · refine List.mem_iff_getElem.mpr ⟨i, by simpa using hi, ?_⟩
          rw [List.getElem_set_ne (fun h => hik h.symm) (by simpa using hi),
            List.getElem_set_self (by simpa using hi), ← hb, hxk]
      · by_cases hki : k = i
        · subst hki
          refine List.mem_iff_getElem.mpr ⟨j, by simpa using hj, ?_⟩
          rw [List.getElem_set_self (by simpa using hj), ← ha, hxk]
        · refine List.mem_iff_getElem.mpr ⟨k, by simpa using hk, ?_⟩
          rw [List.getElem_set_ne (fun h => hkj h.symm) (by simpa using hk),
            List.getElem_set_ne (fun h => hki h.symm) (by simpa using hk), hxk]
  next => exact Iff.rfl

/-- `bubbleUp` preserves the length of the array. -/
theorem length_bubbleUp {α : Type} (cmp : α → α → Int) (l : List α) (index : Nat) :
    (bubbleUp cmp l index).length = l.length := by
  induction l, index using bubbleUp.induct cmp with
  | case1 l => rw [bubbleUp]
  | case2 l i x par heq1 heq2 hlt ih =>
      rw [bubbleUp]
      simp only [heq1, heq2, if_pos hlt]
      rw [ih, length_listSwap]
  | case3 l i x par heq1 heq2 hlt =>
      rw [bubbleUp]
      simp only [heq1, heq2, if_neg hlt]
  | case4 l i h =>
      rw [bubbleUp]
      split
      next heq1 heq2 => exact absurd heq2 (h _ _ heq1)
      next => rfl

/-- `bubbleUp` permutes the array members. -/
theorem mem_bubbleUp {α : Type} {x : α} (cmp : α → α → Int) (l : List α) (index : Nat) :
    x ∈ bubbleUp cmp l index ↔ x ∈ l := by
  induction l, index using bubbleUp.induct cmp with
  | case1 l => rw [bubbleUp]
  | case2 l i y par heq1 heq2 hlt ih =>
      rw [bubbleUp]
      simp only [heq1, heq2, if_pos hlt]
      rw [ih, mem_listSwap]
  | case3 l i y par heq1 heq2 hlt =>
      rw [bubbleUp]
      simp only [heq1, heq2, if_neg hlt]
  | case4 l i h =>
      rw [bubbleUp]
      split
      next heq1 heq2 => exact absurd heq2 (h _ _ heq1)
      next => exact Iff.rfl

/-- `bubbleDown` preserves the length of the array. -/
theorem length_bubbleDown {α : Type} (cmp : α → α → Int) (l : List α) (index : Nat) :
    (bubbleDown cmp l index).length = l.length := by
  induction l, index using bubbleDown.induct cmp with
  | case1 l index s hne ih =>
      rw [bubbleDown, dif_pos hne, ih, length_listSwap]
  | case2 l index s hne =>
      rw [bubbleDown, dif_neg hne]

/-- `bubbleDown` permutes the array members. -/
theorem mem_bubbleDown {α : Type} {x : α} (cmp : α → α → Int) (l : List α) (index : Nat) :
    x ∈ bubbleDown cmp l index ↔ x ∈ l := by
  induction l, index using bubbleDown.induct cmp with
  | case1 l index s hne ih =>
      rw [bubbleDown, dif_pos hne, ih, mem_listSwap]
  | case2 l index s hne =>
      rw [bubbleDown, dif_neg hne]

/-- `insert` grows the heap by one element. -/
theorem MinHeap.length_insert {α : Type} (h : MinHeap α) (item : α) :
    (h.insert item).heap.length = h.heap.length + 1 := by
  simp [MinHeap.insert, length_bubbleUp]

/-- Membership after `insert`: the old members plus the new item. -/
theorem MinHeap.mem_insert {α : Type} {x : α} (h : MinHeap α) (item : α) :
    x ∈ (h.insert item).heap ↔ x ∈ h.heap ∨ x = item := by
  simp [MinHeap.insert, mem_bubbleUp]

/-- `extractMin` on a non-empty heap returns some member; the remaining heap
is one shorter, every remaining element was present before, and every old
element either remains or is the extracted one. -/
theorem MinHeap.extractMin_spec {α : Type} (h : MinHeap α) (hne : h.heap ≠ []) :
    ∃ m h', h.extractMin = (some m, h') ∧ m ∈ h.heap ∧
      h'.heap.length = h.heap.length - 1 ∧
      (∀ x ∈ h'.heap, x ∈ h.heap) ∧
      (∀ x ∈ h.heap, x ∈ h'.heap ∨ x = m) := by
  rcases h with ⟨l, cmp⟩
  match l with
  | [] => exact absurd rfl hne
  | [x] =>
      exact ⟨x, ⟨[], cmp⟩, rfl, by simp, by simp, by simp, by simp⟩
  | x :: y :: rest =>
      refine ⟨x, _, rfl, by simp, ?_, ?_, ?_⟩
      · simp [length_bubbleDown, List.length_set, List.length_dropLast]
      · intro z hz
        rw [mem_bubbleDown] at hz
        rcases List.mem_or_eq_of_mem_set hz with hz' | rfl
        · exact (List.dropLast_sublist _).mem hz'
        · exact List.getLast_mem _
      · intro z hz
        obtain ⟨k, hk, hzk⟩ := List.mem_iff_getElem.mp hz
        simp only [List.length_cons] at hk
        by_cases hk0 : k = 0
        · subst hk0
          right
          exact hzk.symm
        · left
          rw [mem_bubbleDown]
          by_cases hklast : k = rest.length + 1
          · -- z is the last element, moved to the root slot
            refine List.mem_iff_getElem.mpr ⟨0, by simp, ?_⟩
            rw [List.getElem_set_self (by simp)]
            rw [List.getLast_eq_getElem]
            simp only [List.length_cons]
            rw [← hzk]
            congr 1
            omega
          · -- z keeps its index in the truncated array
            have hkb : k < ((x :: y :: rest).dropLast.set 0
                ((x :: y :: rest).getLast (by simp))).length := by
              simp only [List.length_set, List.length_dropLast, List.length_cons]
              omega
            refine List.mem_iff_getElem.mpr ⟨k, hkb, ?_⟩
            rw [List.getElem_set_ne (Ne.symm hk0) hkb, List.getElem_dropLast]
            exact hzk

namespace HuffmanCompression

/-- Seeding the heap with one leaf per frequency-map entry gives a heap of the
same size. -/
theorem length_foldl_insert (freqMap : List (Char × Nat)) (h0 : MinHeap HuffmanNode) :
    (freqMap.foldl
        (fun h cf => h.insert (HuffmanNode.mk (some cf.1) cf.2 none none)) h0).heap.length
      = h0.heap.length + freqMap.length := by
  induction freqMap generalizing h0 with
  | nil => simp
  | cons cf rest ih =>
      rw [List.foldl_cons, ih, MinHeap.length_insert]
      simp only [List.length_cons]
      omega

/-- The members of the seeded heap are the initial members plus one leaf per
frequency-map entry. -/
theorem mem_foldl_insert (freqMap : List (Char × Nat)) (h0 : MinHeap HuffmanNode)
    {x : HuffmanNode} :
    x ∈ (freqMap.foldl
        (fun h cf => h.insert (HuffmanNode.mk (some cf.1) cf.2 none none)) h0).heap ↔
      x ∈ h0.heap ∨ ∃ cf ∈ freqMap, x = HuffmanNode.mk (some cf.1) cf.2 none none := by
  induction freqMap generalizing h0 with
  | nil => simp
  | cons cf rest ih =>
      rw [List.foldl_cons, ih, MinHeap.mem_insert]
      constructor
      · rintro ((hx | rfl) | ⟨cf', hcf', rfl⟩)
        · exact Or.inl hx
        · exact Or.inr ⟨cf, by simp, rfl⟩
        · exact Or.inr ⟨cf', by simp [hcf'], rfl⟩
      · rintro (hx | ⟨cf', hcf', rfl⟩)
        · exact Or.inl (Or.inl hx)
        · rcases List.mem_cons.mp hcf' with rfl | hcf''
          · exact Or.inl (Or.inr rfl)
          · exact Or.inr ⟨cf', hcf'', rfl⟩

/-- A heap with at most one element passes the `size > 1` guard negatively:
the loop returns it unchanged (whatever the fuel). -/
theorem huffLoop_singleton (fuel : Nat) (h : MinHeap HuffmanNode)
    (hl : h.heap.length ≤ 1) : huffLoop fuel h = h := by
  cases fuel with
  | zero => rw [huffLoop]
  | succ fuel =>
      rw [huffLoop, if_neg]
      simp only [MinHeap.size]
      omega

/-- The combining loop of `buildHuffmanTree`, started on a heap of at least
two well-shaped nodes with sufficient fuel, ends with a single well-shaped
internal root whose leaves cover every leaf character of the initial heap. -/
theorem huffLoop_spec : ∀ (fuel : Nat) (h : MinHeap HuffmanNode),
    h.heap.length ≤ fuel + 1 → 2 ≤ h.heap.length →
    (∀ x ∈ h.heap, x.wf) →
    ∃ root : HuffmanNode,
      (huffLoop fuel h).heap = [root] ∧ root.wf = true ∧
      (∃ f lt rt, root = HuffmanNode.mk none f (some lt) (some rt)) ∧
      (∀ ch : Char, (∃ t ∈ h.heap, ch ∈ t.leafChars) → ch ∈ root.leafChars) := by
  intro fuel
  induction fuel with
  | zero =>
      intro h hle h2 _
      omega
  | succ fuel ih =>
      intro h hle h2 hwf
      have hne : h.heap ≠ [] := by
        intro hcon
        rw [hcon] at h2
        simp at h2
      obtain ⟨left, h1, heq1, hmem1, hlen1, hsub1, hlow1⟩ := MinHeap.extractMin_spec h hne
      have hne1 : h1.heap ≠ [] := by
        intro hcon
        rw [hcon] at hlen1
        simp at hlen1
        omega
      obtain ⟨right, hR, heq2, hmem2, hlen2, hsub2, hlow2⟩ := MinHeap.extractMin_spec h1 hne1
      have hguard : h.size > 1 := by
        simp only [MinHeap.size]
        omega
      have hunfold : huffLoop (fuel + 1) h =
          huffLoop fuel (hR.insert (HuffmanNode.mk none (left.freq + right.freq)
            (some left) (some right))) := by
        rw [huffLoop, if_pos hguard]
        simp only [heq1, heq2]
      have hwfleft : left.wf := hwf left hmem1
      have hwfright : right.wf := hwf right (hsub1 right hmem2)
      have hwfparent : (HuffmanNode.mk none (left.freq + right.freq)
          (some left) (some right)).wf = true := by
        simp [HuffmanNode.wf, hwfleft, hwfright]
      have hleafparent : (HuffmanNode.mk none (left.freq + right.freq)
          (some left) (some right)).leafChars = left.leafChars ++ right.leafChars := by
        simp [HuffmanNode.leafChars]
      have hlennew : (hR.insert (HuffmanNode.mk none (left.freq + right.freq)
          (some left) (some right))).heap.length = h.heap.length - 1 := by
        rw [MinHeap.length_insert]
        omega
      by_cases hsz : h.heap.length = 2
      · -- the inserted parent is the only node left: the loop stops
        have hR0 : hR.heap = [] := by
          have : hR.heap.length = 0 := by omega
          exact List.length_eq_zero.mp this
        have hnewheap : (hR.insert (HuffmanNode.mk none (left.freq + right.freq)
            (some left) (some right))).heap =
            [HuffmanNode.mk none (left.freq + right.freq) (some left) (some right)] := by
          rcases hR with ⟨lR, cmpR⟩
          simp only at hR0
          subst hR0
          simp [MinHeap.insert, bubbleUp]
        refine ⟨HuffmanNode.mk none (left.freq + right.freq) (some left) (some right),
          ?_, hwfparent, ⟨_, left, right, rfl⟩, ?_⟩
        · rw [hunfold, huffLoop_singleton fuel _ (by rw [hnewheap]; simp), hnewheap]
        · intro ch ⟨t, ht, hcht⟩
          rw [hleafparent, List.mem_append]
          rcases hlow1 t ht with ht1 | rfl
          · rcases hlow2 t ht1 with ht2 | rfl
            · rw [hR0] at ht2
              simp at ht2
            · exact Or.inr hcht
          · exact Or.inl hcht
      · -- at least two nodes remain: recurse
        have hwfnew : ∀ x ∈ (hR.insert (HuffmanNode.mk none (left.freq + right.freq)
            (some left) (some right))).heap, x.wf := by
          intro x hx
          rcases (MinHeap.mem_insert _ _).mp hx with hx' | rfl
          · exact hwf x (hsub1 x (hsub2 x hx'))
          · exact hwfparent
        obtain ⟨root, hroot, hwfroot, hintroot, hcovroot⟩ := ih
          (hR.insert (HuffmanNode.mk none (left.freq + right.freq) (some left) (some right)))
          (by omega) (by omega) hwfnew
        refine ⟨root, by rw [hunfold]; exact hroot, hwfroot, hintroot, ?_⟩
        intro ch ⟨t, ht, hcht⟩
        apply hcovroot
        rcases hlow1 t ht with ht1 | rfl
        · rcases hlow2 t ht1 with ht2 | rfl
          · exact ⟨t, (MinHeap.mem_insert _ _).mpr (Or.inl ht2), hcht⟩
          · refine ⟨_, (MinHeap.mem_insert _ _).mpr (Or.inr rfl), ?_⟩
            rw [hleafparent, List.mem_append]
            exact Or.inr hcht
        · refine ⟨_, (MinHeap.mem_insert _ _).mpr (Or.inr rfl), ?_⟩
          rw [hleafparent, List.mem_append]
          exact Or.inl hcht

/-- `buildHuffmanTree` on a frequency map with at least two entries returns a
well-shaped internal root covering every mapped character. -/
theorem buildHuffmanTree_spec (freqMap : List (Char × Nat)) (h2 : 2 ≤ freqMap.length) :
    ∃ root, buildHuffmanTree freqMap = some root ∧ root.wf = true ∧
      (∃ f lt rt, root = HuffmanNode.mk none f (some lt) (some rt)) ∧
      (∀ cf ∈ freqMap, cf.1 ∈ root.leafChars) := by
  have hlen0 : (freqMap.foldl
      (fun h cf => h.insert (HuffmanNode.mk (some cf.1) cf.2 none none))
      (⟨[], huffCmp⟩ : MinHeap HuffmanNode)).heap.length = freqMap.length := by
    rw [length_foldl_insert]
    simp
  have hwf0 : ∀ x ∈ (freqMap.foldl
      (fun h cf => h.insert (HuffmanNode.mk (some cf.1) cf.2 none none))
      (⟨[], huffCmp⟩ : MinHeap HuffmanNode)).heap, x.wf := by
    intro x hx
    rcases (mem_foldl_insert _ _).mp hx with hx' | ⟨cf, hcf, rfl⟩
    · simp at hx'
    · simp [HuffmanNode.wf]
  obtain ⟨root, hroot, hwfroot, hintroot, hcovroot⟩ := huffLoop_spec
    (freqMap.foldl (fun h cf => h.insert (HuffmanNode.mk (some cf.1) cf.2 none none))
      (⟨[], huffCmp⟩ : MinHeap HuffmanNode)).heap.length
    (freqMap.foldl (fun h cf => h.insert (HuffmanNode.mk (some cf.1) cf.2 none none))
      (⟨[], huffCmp⟩ : MinHeap HuffmanNode))
    (by omega) (by omega) hwf0
  refine ⟨root, ?_, hwfroot, hintroot, ?_⟩
  · rw [buildHuffmanTree]
    simp only [MinHeap.size, hlen0]
    rw [if_neg (by omega)]
    rcases hh : huffLoop freqMap.length
        (freqMap.foldl (fun h cf => h.insert (HuffmanNode.mk (some cf.1) cf.2 none none))
          (⟨[], huffCmp⟩ : MinHeap HuffmanNode)) with ⟨hl, hcmp⟩
    rw [hlen0] at hroot
    rw [hh] at hroot
    simp only at hroot
    subst hroot
    rw [hh]
    rfl
  · intro cf hcf
    apply hcovroot
    refine ⟨HuffmanNode.mk (some cf.1) cf.2 none none, ?_, ?_⟩
    · exact (mem_foldl_insert _ _).mpr (Or.inr ⟨cf, hcf, rfl⟩)
    · simp [HuffmanNode.leafChars]

end HuffmanCompression

namespace HuffmanCompression

/-- Unfolding of `HuffmanNode.size` on a constructor. -/
theorem size_mk (c : Option Char) (f : Nat) (l r : Option HuffmanNode) :
    (HuffmanNode.mk c f l r).size =
      1 + (match l with | some t => t.size | none => 0) +
        (match r with | some t => t.size | none => 0) := by
  rw [HuffmanNode.size.eq_def]

/-- A tree has positive size. -/
theorem size_pos (t : HuffmanNode) : 1 ≤ t.size := by
  rcases t with ⟨c, f, l, r⟩
  rw [size_mk]
  omega

/-- The left child is smaller than its parent. -/
theorem size_left_lt (c : Option Char) (f : Nat) (l : HuffmanNode)
    (r : Option HuffmanNode) : l.size < (HuffmanNode.mk c f (some l) r).size := by
  cases r with
  | none => simp [size_mk]
  | some r2 =>
      simp [size_mk]
      omega

/-- The right child is smaller than its parent. -/
theorem size_right_lt (c : Option Char) (f : Nat) (l : Option HuffmanNode)
    (r : HuffmanNode) : r.size < (HuffmanNode.mk c f l (some r)).size := by
  cases l <;> simp [size_mk]

/-- Soundness of the encoding-map traversal: every binding it produces that
was not already in the accumulator maps a character to `q` extended by a valid
leaf path (`pathOk`) in the traversed subtree. -/
theorem traverse_spec : ∀ (n : Nat) (t : HuffmanNode), t.size ≤ n → t.wf = true →
    ∀ (q : List Char) (m : List (Char × List Char)) (c : Char) (p : List Char),
      (t.isLeafShape = true → q ≠ []) →
      List.lookup c (traverse t q m) = some p →
      List.lookup c m = some p ∨ ∃ p', p = q ++ p' ∧ pathOk c t p' = true := by
  intro n
  induction n with
  | zero =>
      intro t hsz
      have := size_pos t
      omega
  | succ n ih =>
      intro t hsz hwf q m c p hleaf hlk
      rcases t with ⟨tc, tf, tl, tr⟩
      rcases tc with _ | c' <;> rcases tl with _ | l <;> rcases tr with _ | r <;>
        try simp [HuffmanNode.wf] at hwf
      · -- internal node
        obtain ⟨hwl, hwr⟩ := hwf
        have htrav : traverse (HuffmanNode.mk none tf (some l) (some r)) q m =
            traverse r (q ++ ['1']) (traverse l (q ++ ['0']) m) := by
          simp only [traverse]
        rw [htrav] at hlk
        have hszl : l.size ≤ n := by
          have := size_left_lt none tf l (some r)
          omega
        have hszr : r.size ≤ n := by
          have := size_right_lt none tf (some l) r
          omega
        rcases ih r hszr hwr (q ++ ['1']) _ c p (by simp) hlk with hin | ⟨p', rfl, hpath⟩
        · rcases ih l hszl hwl (q ++ ['0']) m c p (by simp) hin with hin' | ⟨p', rfl, hpath⟩
          · exact Or.inl hin'
          · refine Or.inr ⟨'0' :: p', by simp, ?_⟩
            simp [pathOk, HuffmanNode.left, hpath]
        · refine Or.inr ⟨'1' :: p', by simp, ?_⟩
          simp [pathOk, HuffmanNode.right, hpath]
      · -- leaf
        have hq : q ≠ [] := hleaf (by simp [HuffmanNode.isLeafShape, HuffmanNode.char,
          HuffmanNode.left, HuffmanNode.right])
        simp only [traverse, if_neg hq] at hlk
        by_cases hcc : c = c'
        · subst hcc
          rw [lookup_assocSet_self] at hlk
          obtain rfl : q = p := Option.some.inj hlk
          exact Or.inr ⟨[], by simp, by simp [pathOk]⟩
        · rw [lookup_assocSet_ne hcc] at hlk
          exact Or.inl hlk

/-- Completeness of the encoding-map traversal: it preserves existing keys and
adds a binding for every leaf character of the subtree. -/
theorem traverse_coverage : ∀ (n : Nat) (t : HuffmanNode), t.size ≤ n → t.wf = true →
    ∀ (q : List Char) (m : List (Char × List Char)),
      (∀ ch : Char, (List.lookup ch m).isSome →
        (List.lookup ch (traverse t q m)).isSome) ∧
      (∀ ch ∈ t.leafChars, (List.lookup ch (traverse t q m)).isSome) := by
  intro n
  induction n with
  | zero =>
      intro t hsz
      have := size_pos t
      omega
  | succ n ih =>
      intro t hsz hwf q m
      rcases t with ⟨tc, tf, tl, tr⟩
      rcases tc with _ | c' <;> rcases tl with _ | l <;> rcases tr with _ | r <;>
        try simp [HuffmanNode.wf] at hwf
      · -- internal node
        obtain ⟨hwl, hwr⟩ := hwf
        have htrav : traverse (HuffmanNode.mk none tf (some l) (some r)) q m =
            traverse r (q ++ ['1']) (traverse l (q ++ ['0']) m) := by
          simp only [traverse]
        have hszl : l.size ≤ n := by
          have := size_left_lt none tf l (some r)
          omega
        have hszr : r.size ≤ n := by
          have := size_right_lt none tf (some l) r
          omega
        rw [htrav]
        constructor
        · intro ch hch
          exact (ih r hszr hwr (q ++ ['1']) _).1 ch
            ((ih l hszl hwl (q ++ ['0']) m).1 ch hch)
        · intro ch hch
          have hch' : ch ∈ l.leafChars ∨ ch ∈ r.leafChars := by
            simpa [HuffmanNode.leafChars] using hch
          rcases hch' with hch' | hch'
          · exact (ih r hszr hwr (q ++ ['1']) _).1 ch
              ((ih l hszl hwl (q ++ ['0']) m).2 ch hch')
          · exact (ih r hszr hwr (q ++ ['1']) _).2 ch hch'
      · -- leaf
        constructor
        · intro ch hch
          simp only [traverse]
          by_cases hcc : ch = c'
          · subst hcc
            rw [lookup_assocSet_self]
            rfl
          · rw [lookup_assocSet_ne hcc]
            exact hch
        · intro ch hch
          have : ch = c' := by simpa [HuffmanNode.leafChars] using hch
          subst this
          simp only [traverse]
          rw [lookup_assocSet_self]
          rfl

/-- The encoding map of a well-shaped internal root: every binding is a
non-empty valid leaf path from the root, and every leaf character is bound. -/
theorem buildEncodingMap_spec (f : Nat) (lt rt : HuffmanNode)
    (hwf : (HuffmanNode.mk none f (some lt) (some rt)).wf = true) :
    (∀ (c : Char) (p : List Char),
        List.lookup c (buildEncodingMap (some (HuffmanNode.mk none f (some lt) (some rt))))
          = some p →
        pathOk c (HuffmanNode.mk none f (some lt) (some rt)) p = true ∧ p ≠ []) ∧
    (∀ c ∈ (HuffmanNode.mk none f (some lt) (some rt)).leafChars,
        (List.lookup c
          (buildEncodingMap (some (HuffmanNode.mk none f (some lt) (some rt))))).isSome) := by
  constructor
  · intro c p hlk
    rw [buildEncodingMap] at hlk
    rcases traverse_spec (HuffmanNode.mk none f (some lt) (some rt)).size _ le_rfl hwf
        [] [] c p (by simp [HuffmanNode.isLeafShape, HuffmanNode.char]) hlk with
      hin | ⟨p', hpeq, hpath⟩
    · simp [List.lookup] at hin
    · subst hpeq
      refine ⟨by simpa using hpath, ?_⟩
      intro hcon
      subst hcon
      rw [pathOk.eq_def] at hpath
      simp at hpath
  · intro c hc
    rw [buildEncodingMap]
    exact (traverse_coverage (HuffmanNode.mk none f (some lt) (some rt)).size _ le_rfl hwf
      [] []).2 c hc

end HuffmanCompression

namespace HuffmanCompression

/-- Unfolding of `pathOk` on an empty path. -/
theorem pathOk_nil (c : Char) (n : HuffmanNode) :
    pathOk c n [] =
      (match n with | .mk (some c') _ none none => decide (c' = c) | _ => false) := rfl

/-- Unfolding of `pathOk` on a cons path. -/
theorem pathOk_cons (c : Char) (n : HuffmanNode) (b : Char) (p : List Char) :
    pathOk c n (b :: p) =
      if b = '0' then
        (match n.left with | some l => pathOk c l p | none => false)
      else if b = '1' then
        (match n.right with | some r => pathOk c r p | none => false)
      else false := rfl

/-- Unfolding of `decodeLoop` on a cons bit string. -/
theorem decodeLoop_cons (root cur : HuffmanNode) (b : Char) (rest : List Char) :
    decodeLoop root cur (b :: rest) =
      if b = '0' then
        (match cur.left with
         | some next =>
             (match next with
              | .mk (some c) _ none none =>
                  (decodeLoop root root rest).map (fun out => c :: out)
              | _ => decodeLoop root next rest)
         | none => none)
      else if b = '1' then
        (match cur.right with
         | some next =>
             (match next with
              | .mk (some c) _ none none =>
                  (decodeLoop root root rest).map (fun out => c :: out)
              | _ => decodeLoop root next rest)
         | none => none)
      else none := rfl

/-- Walking the decoder along a non-empty valid leaf path emits the leaf
character and restarts from the root: the walk never emits early, because
every intermediate node on a valid path has the child the path takes next,
which falsifies the decoder's leaf test. -/
theorem decodeLoop_pathOk (root : HuffmanNode) :
    ∀ (p : List Char) (cur : HuffmanNode) (c : Char),
      pathOk c cur p = true → p ≠ [] →
      ∀ bits, decodeLoop root cur (p ++ bits) =
        (decodeLoop root root bits).map (fun out => c :: out) := by
  intro p
  induction p with
  | nil => intro cur c _ hne; exact absurd rfl hne
  | cons b p ih =>
      intro cur c hpath _ bits
      rw [pathOk_cons] at hpath
      by_cases hb0 : b = '0'
      · subst hb0
        rw [if_pos rfl] at hpath
        rcases hl : cur.left with _ | next
        · rw [hl] at hpath
          simp at hpath
        · simp only [hl] at hpath
          cases hp : p with
          | nil =>
              rw [hp] at hpath
              rcases next with ⟨nc, nf, nl, nr⟩
              rcases nc with _ | c' <;> rcases nl with _ | nwl <;> rcases nr with _ | nwr <;>
                rw [pathOk_nil] at hpath <;> simp at hpath
              subst hpath
              rw [List.cons_append, decodeLoop_cons, if_pos rfl, hl]
              simp
          | cons b' p' =>
              subst hp
              rw [List.cons_append, decodeLoop_cons, if_pos rfl, hl]
              rcases next with ⟨nc, nf, nl, nr⟩
              rcases nc with _ | cc <;> rcases nl with _ | nwl <;> rcases nr with _ | nwr <;>
                first
                | exact ih _ c hpath (by simp) bits
                | · rw [pathOk_cons] at hpath
                    simp [HuffmanNode.left, HuffmanNode.right] at hpath
      · by_cases hb1 : b = '1'
        · subst hb1
          rw [if_neg hb0, if_pos rfl] at hpath
          rcases hr : cur.right with _ | next
          · rw [hr] at hpath
            simp at hpath
          · simp only [hr] at hpath
            cases hp : p with
            | nil =>
                rw [hp] at hpath
                rcases next with ⟨nc, nf, nl, nr⟩
                rcases nc with _ | c' <;> rcases nl with _ | nwl <;> rcases nr with _ | nwr <;>
                  rw [pathOk_nil] at hpath <;> simp at hpath
                subst hpath
                rw [List.cons_append, decodeLoop_cons, if_neg hb0, if_pos rfl, hr]
                simp
            | cons b' p' =>
                subst hp
                rw [List.cons_append, decodeLoop_cons, if_neg hb0, if_pos rfl, hr]
                rcases next with ⟨nc, nf, nl, nr⟩
                rcases nc with _ | cc <;> rcases nl with _ | nwl <;> rcases nr with _ | nwr <;>
                  first
                  | exact ih _ c hpath (by simp) bits
                  | · rw [pathOk_cons] at hpath
                      simp [HuffmanNode.left, HuffmanNode.right] at hpath
        · rw [if_neg hb0, if_neg hb1] at hpath
          simp at hpath

/-- Decoding the concatenated codes of a text recovers the text, provided
every code in the map is a non-empty valid leaf path and every character of
the text has a code. -/
theorem decodeLoop_encode (root : HuffmanNode) (m : List (Char × List Char))
    (hm : ∀ ch p, List.lookup ch m = some p → pathOk ch root p = true ∧ p ≠ []) :
    ∀ text : List Char, (∀ ch ∈ text, (List.lookup ch m).isSome) →
      decodeLoop root root (huffEncodeText m text) = some text := by
  intro text
  induction text with
  | nil => intro _; rfl
  | cons ch rest ih =>
      intro hall
      obtain ⟨code, hcode⟩ := Option.isSome_iff_exists.mp (hall ch (by simp))
      obtain ⟨hpath, hne⟩ := hm ch code hcode
      have hstep : huffEncodeText m (ch :: rest) = code ++ huffEncodeText m rest := by
        simp only [huffEncodeText, hcode]
      rw [hstep, decodeLoop_pathOk root code root ch hpath hne,
        ih (fun x hx => hall x (by simp [hx]))]
      rfl

end HuffmanCompression

/-- `assocSet` never yields the empty list. -/
theorem assocSet_ne_nil {α β : Type} [DecidableEq α] (k : α) (v : β) (m : List (α × β)) :
    assocSet k v m ≠ [] := by
  cases m with
  | nil => simp [assocSet]
  | cons p rest =>
      rcases p with ⟨k', v'⟩
      by_cases h : k' = k <;> simp [assocSet, h]

namespace HuffmanCompression

/-- After the frequency fold, every scanned character and every
already-present key is found. -/
theorem lookup_freq_fold : ∀ (text : List Char) (m : List (Char × Nat)) (c : Char),
    c ∈ text ∨ (List.lookup c m).isSome →
    (List.lookup c (text.foldl
      (fun freqMap ch => assocSet ch ((List.lookup ch freqMap).getD 0 + 1) freqMap)
      m)).isSome := by
  intro text
  induction text with
  | nil =>
      intro m c h
      rcases h with h | h
      · simp at h
      · exact h
  | cons x text ih =>
      intro m c h
      rw [List.foldl_cons]
      apply ih
      by_cases hcx : c = x
      · subst hcx
        right
        rw [lookup_assocSet_self]
        rfl
      · rcases h with h | h
        · rcases List.mem_cons.mp h with rfl | h'
          · exact absurd rfl hcx
          · exact Or.inl h'
        · right
          rw [lookup_assocSet_ne hcx]
          exact h

/-- The frequency fold keeps a non-empty accumulator non-empty. -/
theorem freq_fold_ne_nil : ∀ (text : List Char) (m : List (Char × Nat)), m ≠ [] →
    text.foldl
      (fun freqMap ch => assocSet ch ((List.lookup ch freqMap).getD 0 + 1) freqMap)
      m ≠ [] := by
  intro text
  induction text with
  | nil =>
      intro m h
      simpa using h
  | cons x text ih =>
      intro m h
      rw [List.foldl_cons]
      exact ih _ (assocSet_ne_nil _ _ _)

/-- A non-empty text has a non-empty frequency map. -/
theorem buildFrequencyMap_ne_nil {text : List Char} (h : text ≠ []) :
    buildFrequencyMap text ≠ [] := by
  cases text with
  | nil => exact absurd rfl h
  | cons x rest =>
      rw [buildFrequencyMap, List.foldl_cons]
      exact freq_fold_ne_nil _ _ (assocSet_ne_nil _ _ _)

/-- Every character of the text is a key of its frequency map. -/
theorem mem_keys_buildFrequencyMap {text : List Char} {c : Char} (h : c ∈ text) :
    (List.lookup c (buildFrequencyMap text)).isSome :=
  lookup_freq_fold text [] c (Or.inl h)

/-- A singleton frequency map forces every text character to equal its key. -/
theorem all_eq_of_buildFrequencyMap_single {text : List Char} {c : Char} {f : Nat}
    (hfm : buildFrequencyMap text = [(c, f)]) : ∀ x ∈ text, x = c := by
  intro x hx
  have hsome := mem_keys_buildFrequencyMap hx
  rw [hfm] at hsome
  obtain ⟨v, hv⟩ := Option.isSome_iff_exists.mp hsome
  have hmem := lookup_mem_of_eq_some hv
  simp at hmem
  exact hmem.1

/-- The frequency fold on a constant run just increments the stored count. -/
theorem freq_fold_replicate (c : Char) : ∀ (k n : Nat),
    (List.replicate k c).foldl
      (fun freqMap ch => assocSet ch ((List.lookup ch freqMap).getD 0 + 1) freqMap)
      [(c, n)] = [(c, n + k)] := by
  intro k
  induction k with
  | zero => intro n; simp
  | succ k ih =>
      intro n
      rw [List.replicate_succ, List.foldl_cons]
      have hstep : assocSet c ((List.lookup c [(c, n)]).getD 0 + 1) [(c, n)] = [(c, n + 1)] := by
        rw [lookup_cons_eq]
        simp [assocSet]
      have harith : n + 1 + k = n + (k + 1) := by omega
      rw [hstep, ih (n + 1), harith]

/-- The frequency map of a non-empty constant text is the singleton holding
its character and length. -/
theorem buildFrequencyMap_all_eq {text : List Char} {c : Char} (hne : text ≠ [])
    (hall : ∀ x ∈ text, x = c) : buildFrequencyMap text = [(c, text.length)] := by
  obtain ⟨k, hk⟩ : ∃ k, text = c :: List.replicate k c := by
    cases text with
    | nil => exact absurd rfl hne
    | cons x rest =>
        have hx : x = c := hall x (by simp)
        subst hx
        refine ⟨rest.length, ?_⟩
        congr 1
        exact List.eq_replicate_of_mem (fun b hb => hall b (by simp [hb]))
  subst hk
  rw [buildFrequencyMap, List.foldl_cons]
  have h0 : assocSet c ((List.lookup c ([] : List (Char × Nat))).getD 0 + 1) [] = [(c, 1)] := by
    simp [assocSet, List.lookup]
  rw [h0, freq_fold_replicate]
  simp [Nat.add_comm]

/-- `compress` on a text with a single unique character: single-leaf tree and
a run of `'0'` of the original length. -/
theorem compress_single {text : List Char} {c : Char} (hne : text ≠ [])
    (hall : ∀ x ∈ text, x = c) :
    compress text = ⟨List.replicate text.length '0',
      some (HuffmanNode.mk (some c) text.length none none), some c⟩ := by
  have hie : text.isEmpty = false := by simpa [List.isEmpty_iff] using hne
  have hfm := buildFrequencyMap_all_eq hne hall
  simp [compress, hie, hfm]

/-- `decompress` with a single-leaf tree repeats its character once per
compressed character. -/
theorem decompress_single_leaf (bits : List Char) (c : Char) (f : Nat) :
    decompress bits (some (HuffmanNode.mk (some c) f none none)) =
      .ok (List.replicate bits.length c) := by
  cases bits with
  | nil => rfl
  | cons b rest => rfl

/-- The encoding of a non-empty text is non-empty when the first character's
code is. -/
theorem huffEncodeText_ne_nil {m : List (Char × List Char)} {x : Char} (rest : List Char)
    {code : List Char} (hcode : List.lookup x m = some code) (hne : code ≠ []) :
    huffEncodeText m (x :: rest) ≠ [] := by
  simp only [huffEncodeText, hcode]
  simp [hne]

/-- Huffman round-trip: decompressing the compressed bit string with the tree
returned by `compress` recovers the original text, for every text. -/
theorem huffman_roundtrip (text : List Char) :
    decompress (compress text).compressed (compress text).tree = .ok text := by
  by_cases h0 : text = []
  · subst h0
    rfl
  · rcases hfm : buildFrequencyMap text with _ | ⟨⟨c, f⟩, restfm⟩
    · exact absurd hfm (buildFrequencyMap_ne_nil h0)
    · rcases hrest : restfm with _ | ⟨p2, restfm2⟩
      · -- the degenerate single-unique-character path
        subst hrest
        have hall := all_eq_of_buildFrequencyMap_single hfm
        rw [compress_single h0 hall]
        simp only
        rw [decompress_single_leaf, List.length_replicate]
        exact congrArg Except.ok (List.eq_replicate_of_mem hall).symm
      · -- the general path: at least two distinct characters
        subst hrest
        have h2 : 2 ≤ (buildFrequencyMap text).length := by
          rw [hfm]
          simp
        obtain ⟨root, hbuild, hwf, ⟨rf, lt, rt, hshape⟩, hcov⟩ := buildHuffmanTree_spec _ h2
        have hie : text.isEmpty = false := by simpa [List.isEmpty_iff] using h0
        have hlen1 : ¬ (buildFrequencyMap text).length = 1 := by
          rw [hfm]
          simp
        have hcomp : compress text =
            ⟨huffEncodeText (buildEncodingMap (some root)) text, some root, none⟩ := by
          simp only [compress, hie, Bool.false_eq_true, if_false, if_neg hlen1, hbuild]
        subst hshape
        obtain ⟨hsound, hcovmap⟩ := buildEncodingMap_spec rf lt rt hwf
        have hmcov : ∀ ch ∈ text, (List.lookup ch
            (buildEncodingMap (some (HuffmanNode.mk none rf (some lt) (some rt))))).isSome := by
          intro ch hch
          apply hcovmap
          obtain ⟨fv, hfv⟩ := Option.isSome_iff_exists.mp (mem_keys_buildFrequencyMap hch)
          have hpair := lookup_mem_of_eq_some hfv
          exact hcov (ch, fv) hpair
        have hdec := decodeLoop_encode _ _ hsound text hmcov
        rw [hcomp]
        simp only
        obtain ⟨x, rest, rfl⟩ : ∃ x rest, text = x :: rest := by
          cases text with
          | nil => exact absurd rfl h0
          | cons x rest => exact ⟨x, rest, rfl⟩
        obtain ⟨code, hcode⟩ := Option.isSome_iff_exists.mp (hmcov x (by simp))
        have hcodene : code ≠ [] := (hsound x code hcode).2
        have hence : (huffEncodeText
            (buildEncodingMap (some (HuffmanNode.mk none rf (some lt) (some rt))))
            (x :: rest)).isEmpty = false := by
          simpa [List.isEmpty_iff] using huffEncodeText_ne_nil rest hcode hcodene
        simp only [decompress, hence, Bool.false_eq_true, if_false, hdec]

end HuffmanCompression

namespace HuffmanCompression

/-- `decompress` never throws: every branch of the decoder returns a normal
`.ok` value (the failure paths return the sentinel string). -/
theorem decompress_isOk (bits : List Char) (tr : Option HuffmanNode) :
    ∃ out, decompress bits tr = .ok out := by
  rcases tr with _ | t
  · exact ⟨[], rfl⟩
  · simp only [decompress]
    by_cases hie : bits.isEmpty
    · rw [if_pos hie]
      exact ⟨[], rfl⟩
    · rw [if_neg hie]
      rcases t with ⟨tc, tf, tl, tr'⟩
      rcases tc with _ | c <;> rcases tl with _ | l <;> rcases tr' with _ | r <;>
        first
          | exact ⟨_, rfl⟩
          | (rcases hdl : decodeLoop _ _ bits with _ | out <;> exact ⟨_, rfl⟩)

/-- A character other than `'0'`/`'1'` anywhere in the bit string forces the
decoder walk to fail (return `none`), whatever the current node. -/
theorem decodeLoop_bad_bit (root : HuffmanNode) : ∀ (bits : List Char) (cur : HuffmanNode),
    (∃ b ∈ bits, b ≠ '0' ∧ b ≠ '1') → decodeLoop root cur bits = none := by
  intro bits
  induction bits with
  | nil =>
      intro cur h
      simp at h
  | cons b rest ih =>
      rintro cur ⟨x, hx, hx0, hx1⟩
      rw [decodeLoop_cons]
      by_cases hb0 : b = '0'
      · rw [if_pos hb0]
        have hxr : x ∈ rest := by
          rcases List.mem_cons.mp hx with rfl | h
          · exact absurd hb0 hx0
          · exact h
        have hnone : ∀ cur' : HuffmanNode, decodeLoop root cur' rest = none :=
          fun cur' => ih cur' ⟨x, hxr, hx0, hx1⟩
        rcases hl : cur.left with _ | next
        · rfl
        · rcases next with ⟨nc, nf, nl, nr⟩
          rcases nc with _ | cc <;> rcases nl with _ | nwl <;> rcases nr with _ | nwr <;>
            simp [hnone]
      · by_cases hb1 : b = '1'
        · rw [if_neg hb0, if_pos hb1]
          have hxr : x ∈ rest := by
            rcases List.mem_cons.mp hx with rfl | h
            · exact absurd hb1 hx1
            · exact h
          have hnone : ∀ cur' : HuffmanNode, decodeLoop root cur' rest = none :=
            fun cur' => ih cur' ⟨x, hxr, hx0, hx1⟩
          rcases hr : cur.right with _ | next
          · rfl
          · rcases next with ⟨nc, nf, nl, nr⟩
            rcases nc with _ | cc <;> rcases nl with _ | nwl <;> rcases nr with _ | nwr <;>
              simp [hnone]
        · rw [if_neg hb0, if_neg hb1]

/-- On a tree that is not a single leaf, a failed decoder walk makes
`decompress` return exactly the sentinel string as a normal value. -/
theorem decompress_sentinel_of_walk_none {t : HuffmanNode} {bits : List Char}
    (hleaf : t.isLeafShape = false) (hnone : decodeLoop t t bits = none) :
    decompress bits (some t) = .ok errorSentinel := by
  have hbne : bits ≠ [] := by
    intro h
    subst h
    exact Option.noConfusion hnone
  have hie : bits.isEmpty = false := by simpa [List.isEmpty_iff] using hbne
  rcases t with ⟨tc, tf, tl, tr'⟩
  rcases tc with _ | c <;> rcases tl with _ | l <;> rcases tr' with _ | r <;>
    first
      | (simp [HuffmanNode.isLeafShape, HuffmanNode.char, HuffmanNode.left,
          HuffmanNode.right] at hleaf
         done)
      | (simp only [decompress, hie, Bool.false_eq_true, if_false, hnone])

end HuffmanCompression

/-! ## The claims -/

/-- C1 counterexample: the round-trip fails as stated.  RLE compresses the
text `"1"` to `"1"`, whose decompression is the trailing-digit error rather
than the original text; and LZW compression of the one-character text of code
point `256` (outside the seeded alphabet) already fails its dictionary lookup
(`none` models the wrong non-null assertion), so no code sequence is produced
at all. -/
theorem codecRoundtrip_cex :
    RLECompression.decompress (RLECompression.compress ['1']) =
      .error "Invalid compressed data: Compressed string cannot end with a number." ∧
    LZWCompression.compress [Char.ofNat 256] = none :=
  ⟨by decide, by decide⟩

/-- C1, amended: round-trip holds for RLE on digit-free text, for LZW on text
whose characters all have code point below `256`, and for Huffman on every
text (passing the returned tree through unchanged). -/
theorem codecRoundtrip_amended (text : List Char) :
    ((∀ ch ∈ text, ¬ isDigitChar ch) →
      RLECompression.decompress (RLECompression.compress text) = .ok text) ∧
    ((∀ c ∈ text, c.toNat < 256) →
      ∃ cs, LZWCompression.compress text = some cs ∧
        LZWCompression.decompress cs = .ok text) ∧
    HuffmanCompression.decompress (HuffmanCompression.compress text).compressed
      (HuffmanCompression.compress text).tree = .ok text :=
  ⟨RLECompression.rle_roundtrip text, LZWCompression.lzw_roundtrip_aux text,
    HuffmanCompression.huffman_roundtrip text⟩

/-- C1 witness: the amended round-trip at the concrete text `"ABB"`. -/
theorem codecRoundtrip_amended_witness :
    RLECompression.decompress (RLECompression.compress ['A', 'B', 'B']) =
      .ok ['A', 'B', 'B'] ∧
    (∃ cs, LZWCompression.compress ['A', 'B', 'B'] = some cs ∧
      LZWCompression.decompress cs = .ok ['A', 'B', 'B']) ∧
    HuffmanCompression.decompress
        (HuffmanCompression.compress ['A', 'B', 'B']).compressed
        (HuffmanCompression.compress ['A', 'B', 'B']).tree = .ok ['A', 'B', 'B'] :=
  ⟨(codecRoundtrip_amended ['A', 'B', 'B']).1 (by decide),
   (codecRoundtrip_amended ['A', 'B', 'B']).2.1 (by decide),
   (codecRoundtrip_amended ['A', 'B', 'B']).2.2⟩

/-- C2 counterexample: on the one-character text of code point `256` the very
first emission point looks up a phrase that is not in the dictionary, so the
lookup does fail (`none` models the wrong non-null assertion on
`dictionary.get`). -/
theorem lzwCompressLookup_cex :
    LZWCompression.compress [Char.ofNat 256] = none := by
  decide

/-- C2, amended: when every character of the text has code point below `256`
(the seeded alphabet), every dictionary lookup at an emission point succeeds
and compression produces a code sequence. -/
theorem lzwCompressLookup_amended (text : List Char)
    (h : ∀ c ∈ text, c.toNat < 256) :
    ∃ cs, LZWCompression.compress text = some cs := by
  obtain ⟨cs, hcs, _⟩ := LZWCompression.lzw_roundtrip_aux text h
  exact ⟨cs, hcs⟩

/-- C2 witness: the amended lookup-safety at the concrete text `"ABA"`. -/
theorem lzwCompressLookup_amended_witness :
    ∃ cs, LZWCompression.compress ['A', 'B', 'A'] = some cs :=
  lzwCompressLookup_amended ['A', 'B', 'A'] (by decide)

/-- C3 counterexample: decoding the bad bit `'2'` on a two-leaf tree returns
the sentinel string `"ERROR: Malformed data"` as a normal result — the
failure is not surfaced to the caller as an error. -/
theorem huffmanDecodeFailure_cex :
    HuffmanCompression.decompress ['2']
        (some (HuffmanNode.mk none 2 (some (HuffmanNode.mk (some 'a') 1 none none))
          (some (HuffmanNode.mk (some 'b') 1 none none)))) =
      .ok HuffmanCompression.errorSentinel ∧
    ∀ e, HuffmanCompression.decompress ['2']
        (some (HuffmanNode.mk none 2 (some (HuffmanNode.mk (some 'a') 1 none none))
          (some (HuffmanNode.mk (some 'b') 1 none none)))) ≠
      .error e := by
  refine ⟨rfl, fun e hcon => ?_⟩
  have h : (Except.ok HuffmanCompression.errorSentinel : Except String (List Char)) =
      .error e := hcon
  exact Except.noConfusion h

/-- C3, amended: on a tree that is not a single leaf, `decompress` never
throws; a failed decoder walk makes it return exactly the fixed sentinel
string as a normal value (discarding any partial output); and a character
other than `'0'`/`'1'` anywhere in the bit string does force the walk to
fail. -/
theorem huffmanDecodeFailure_amended (t : HuffmanNode) (bits : List Char)
    (hleaf : t.isLeafShape = false) :
    (∀ e, HuffmanCompression.decompress bits (some t) ≠ .error e) ∧
    (HuffmanCompression.decodeLoop t t bits = none →
      HuffmanCompression.decompress bits (some t) =
        .ok HuffmanCompression.errorSentinel) ∧
    ((∃ b ∈ bits, b ≠ '0' ∧ b ≠ '1') →
      HuffmanCompression.decodeLoop t t bits = none) := by
  refine ⟨fun e hcon => ?_, ?_, ?_⟩
  · obtain ⟨out, hout⟩ := HuffmanCompression.decompress_isOk bits (some t)
    rw [hout] at hcon
    exact Except.noConfusion hcon
  · exact fun hnone => HuffmanCompression.decompress_sentinel_of_walk_none hleaf hnone
  · exact fun hbad => HuffmanCompression.decodeLoop_bad_bit t bits t hbad

/-- C3 witness: the amended behaviour at the bad bit `'2'` on a concrete
two-leaf tree. -/
theorem huffmanDecodeFailure_amended_witness :
    HuffmanCompression.decompress ['2']
        (some (HuffmanNode.mk none 2 (some (HuffmanNode.mk (some 'a') 1 none none))
          (some (HuffmanNode.mk (some 'b') 1 none none)))) =
      .ok HuffmanCompression.errorSentinel :=
  (huffmanDecodeFailure_amended
      (HuffmanNode.mk none 2 (some (HuffmanNode.mk (some 'a') 1 none none))
        (some (HuffmanNode.mk (some 'b') 1 none none)))
      ['2'] rfl).2.1 rfl

/-- C4 counterexample: decompressing the non-empty string `"0"` with an
absent tree returns the empty string as a perfectly normal result — no
missing-auxiliary-data failure is surfaced to the caller. -/
theorem huffmanMissingTree_cex :
    HuffmanCompression.decompress ['0'] none = .ok [] ∧
    ∀ e, HuffmanCompression.decompress ['0'] none ≠ .error e := by
  refine ⟨rfl, fun e hcon => ?_⟩
  have h : (Except.ok [] : Except String (List Char)) = .error e := hcon
  exact Except.noConfusion h

/-- C4, amended: with an absent tree, `decompress` returns the empty string
as a normal value whatever the compressed data — the missing tree is never
reported as an error. -/
theorem huffmanMissingTree_amended (compressed : List Char) :
    HuffmanCompression.decompress compressed none = .ok [] :=
  rfl

/-- C5: a compressed string ending in a digit (the count buffer is left
non-empty) makes RLE `decompress` fail with an error, and in particular it
never returns any normal (truncated) output. -/
theorem rleTrailingDigit_error (s : List Char) (hne : s ≠ [])
    (hd : isDigitChar (s.getLast hne)) :
    (∃ e, RLECompression.decompress s = .error e) ∧
    ∀ out, RLECompression.decompress s ≠ .ok out := by
  obtain ⟨e, he⟩ := RLECompression.decompressLoop_trailing_digit s hne hd []
  have hdec : RLECompression.decompress s = .error e := by
    rw [RLECompression.decompress, if_neg (by simp [List.isEmpty_iff, hne])]
    exact he
  refine ⟨⟨e, hdec⟩, fun out hcon => ?_⟩
  rw [hdec] at hcon
  exact Except.noConfusion hcon

/-- C5 witness: `decompress "3A2"` throws and in particular does not return
the truncated `"AAA"`. -/
theorem rleTrailingDigit_error_witness :
    (∃ e, RLECompression.decompress ['3', 'A', '2'] = .error e) ∧
    ∀ out, RLECompression.decompress ['3', 'A', '2'] ≠ .ok out :=
  rleTrailingDigit_error ['3', 'A', '2'] (by decide) (by decide)

/-- C6: the trichotomy of the LZW decode loop on each code after the first —
a code present in the mirror dictionary decodes to its stored phrase; a code
equal to the next free code decodes to the previous phrase extended by its
own first character (a normal step, not an error); any other code fails with
the out-of-bounds error. -/
theorem lzwDecodeCode_trichotomy (dictionary : List (Nat × List Char))
    (dictSize : Nat) (prevPhrase : List Char) (currentCode : Nat) (rest : List Nat) :
    (∀ entry, List.lookup currentCode dictionary = some entry →
      LZWCompression.decompressLoop dictionary dictSize prevPhrase (currentCode :: rest) =
        (LZWCompression.decompressLoop ((dictSize, prevPhrase ++ [entry.headI]) :: dictionary)
            (dictSize + 1) entry rest).map (fun out => entry ++ out)) ∧
    (List.lookup currentCode dictionary = none → currentCode = dictSize →
      LZWCompression.decompressLoop dictionary dictSize prevPhrase (currentCode :: rest) =
        (LZWCompression.decompressLoop
            ((dictSize, prevPhrase ++ [(prevPhrase ++ [prevPhrase.headI]).headI]) :: dictionary)
            (dictSize + 1) (prevPhrase ++ [prevPhrase.headI]) rest).map
          (fun out => (prevPhrase ++ [prevPhrase.headI]) ++ out)) ∧
    (List.lookup currentCode dictionary = none → currentCode ≠ dictSize →
      LZWCompression.decompressLoop dictionary dictSize prevPhrase (currentCode :: rest) =
        .error "Invalid compressed data: Code is out of dictionary bounds.") := by
  refine ⟨?_, ?_, ?_⟩
  · intro entry hl
    simp only [LZWCompression.decompressLoop, hl]
  · intro hl heq
    subst heq
    simp [LZWCompression.decompressLoop, hl]
  · intro hl hne
    simp only [LZWCompression.decompressLoop, hl, hne, if_false]

/-- C6 witness: the malformed-code branch at the concrete state of an empty
extra dictionary, next free code `256` and unknown code `999`. -/
theorem lzwDecodeCode_trichotomy_witness :
    LZWCompression.decompressLoop [] 256 ['A'] [999] =
      .error "Invalid compressed data: Code is out of dictionary bounds." :=
  (lzwDecodeCode_trichotomy [] 256 ['A'] 999 []).2.2 rfl (by decide)

/-- C7: on a text with exactly one unique character, `compress` emits a
single-leaf tree holding that character and its frequency together with
`'0'` repeated once per input character (so the compressed length equals the
original length); `decompress` of any single-leaf tree repeats the leaf
character once per compressed character; and the round trip recovers the
text. -/
theorem huffmanSingleChar_spec (text : List Char) (c : Char) (hne : text ≠ [])
    (hall : ∀ x ∈ text, x = c) :
    HuffmanCompression.compress text =
      ⟨List.replicate text.length '0',
        some (HuffmanNode.mk (some c) text.length none none), some c⟩ ∧
    (HuffmanCompression.compress text).compressed.length = text.length ∧
    (∀ (bits : List Char) (f : Nat),
      HuffmanCompression.decompress bits (some (HuffmanNode.mk (some c) f none none)) =
        .ok (List.replicate bits.length c)) ∧
    HuffmanCompression.decompress (HuffmanCompression.compress text).compressed
      (HuffmanCompression.compress text).tree = .ok text := by
  have hc := HuffmanCompression.compress_single hne hall
  refine ⟨hc, ?_, ?_, HuffmanCompression.huffman_roundtrip text⟩
  · rw [hc]
    simp
  · intro bits f
    exact HuffmanCompression.decompress_single_leaf bits c f

/-- C7 witness: the single-unique-character behaviour at the concrete text
`"zzzz"` (compressed length `4`, round trip returns `"zzzz"`). -/
theorem huffmanSingleChar_spec_witness :
    HuffmanCompression.compress ['z', 'z', 'z', 'z'] =
      ⟨['0', '0', '0', '0'], some (HuffmanNode.mk (some 'z') 4 none none), some 'z'⟩ ∧
    (HuffmanCompression.compress ['z', 'z', 'z', 'z']).compressed.length = 4 ∧
    HuffmanCompression.decompress
        (HuffmanCompression.compress ['z', 'z', 'z', 'z']).compressed
        (HuffmanCompression.compress ['z', 'z', 'z', 'z']).tree =
      .ok ['z', 'z', 'z', 'z'] := by
  obtain ⟨h1, h2, h3, h4⟩ :=
    huffmanSingleChar_spec ['z', 'z', 'z', 'z'] 'z' (by decide) (by decide)
  exact ⟨h1, h2, h4⟩

/-- C8: `compress "ABABABA"` produces exactly the code sequence
`[65, 66, 256, 258]` (the code `256` for `"AB"` is assigned at the first
repeat and emitted deterministically), decompressing that sequence returns
`"ABABABA"` exactly, and its last step goes through the self-referential
next-free-code branch: at that point code `258` is not yet in the mirror
dictionary and equals the next free code, and the loop decodes it to the
previous phrase `"AB"` extended by its own first character. -/
theorem lzwAbababa_example :
    LZWCompression.compress ['A', 'B', 'A', 'B', 'A', 'B', 'A'] =
      some [65, 66, 256, 258] ∧
    LZWCompression.decompress [65, 66, 256, 258] =
      .ok ['A', 'B', 'A', 'B', 'A', 'B', 'A'] ∧
    List.lookup 258
        ((257, ['B', 'A']) :: (256, ['A', 'B']) :: LZWCompression.seedInvDict) = none ∧
    LZWCompression.decompressLoop
        ((257, ['B', 'A']) :: (256, ['A', 'B']) :: LZWCompression.seedInvDict)
        258 ['A', 'B'] [258] = .ok ['A', 'B', 'A'] := by
  refine ⟨?_, ?_, ?_, ?_⟩ <;> decide

/-- C9: each codec maps the empty string to the empty encoded form (for
Huffman additionally an absent tree) and maps the empty encoded form back to
the empty string, with no error. -/
theorem emptyInput_all_codecs :
    RLECompression.compress [] = [] ∧
    RLECompression.decompress [] = .ok [] ∧
    LZWCompression.compress [] = some [] ∧
    LZWCompression.decompress [] = .ok [] ∧
    HuffmanCompression.compress [] = ⟨[], none, none⟩ ∧
    (∀ tree, HuffmanCompression.decompress [] tree = .ok []) :=
  ⟨rfl, rfl, rfl, rfl, rfl, fun tree => by cases tree <;> rfl⟩

/-- C10: RLE round-trips every digit-free text (the digit-free precondition
keeps the count/character boundary of the format unambiguous). -/
theorem rleRoundtrip_digit_free (text : List Char)
    (h : ∀ ch ∈ text, ¬ isDigitChar ch) :
    RLECompression.decompress (RLECompression.compress text) = .ok text :=
  RLECompression.rle_roundtrip text h

/-- C10 witness: the digit-free round trip at the concrete text `"AAABBC"`. -/
theorem rleRoundtrip_digit_free_witness :
    RLECompression.decompress (RLECompression.compress ['A', 'A', 'A', 'B', 'B', 'C']) =
      .ok ['A', 'A', 'A', 'B', 'B', 'C'] :=
  rleRoundtrip_digit_free ['A', 'A', 'A', 'B', 'B', 'C'] (by decide)
